import Mathlib

/-!
Verification of the graph library in `src/graph/graph.cpp` (class `Graph`).

The C++ class is embedded shallowly:

* `Edge`, `Vertex`, `Graph` mirror the `struct Edge`, `struct Vertex` and the
  data members of `class Graph` (`_vertex`, `_parent`, `_discovered`,
  `_processed`, `_nvertex`, `_directed`).  The two `bitset<MAX_VERTEX+1>`
  members and the `_parent` vector are modelled as total functions; vector
  index accesses on `_vertex` are modelled with `Option` so that an
  out-of-bounds access (undefined behavior in C++) is `none`.
* Loops and recursions carry an explicit fuel argument; `none` is returned
  when the fuel runs out.  Theorems either evaluate concrete runs (where the
  needed fuel is a concrete number) or assume enough fuel.
* `cout <<` emissions are modelled as an output list returned next to the
  mutated graph state.  The processing order of `detect_directed_cycle` is
  returned as a ghost trace (the C++ code only counts processed vertices).
-/

set_option maxHeartbeats 1000000

/-- The `struct Edge` from graph.cpp: an integer weight and a target vertex id. -/
structure Edge where
  weight : Int
  «to» : Nat
deriving Repr, DecidableEq

/-- The `struct Vertex` from graph.cpp: degree counters (C++ `int`, hence `Int`)
and the ordered list of outgoing edges. -/
structure Vertex where
  indegree : Int
  outdegree : Int
  neighbors : List Edge
deriving Repr, DecidableEq

/-- The data members of `class Graph`.  `vertex`, `nvertex`, `directed` are
`_vertex`, `_nvertex`, `_directed`; `parent` is the `_parent` vector read as a
total map (entries that were never written hold the intended initial `-1`);
`discovered` and `processed` are the two visitation bitsets. -/
structure Graph where
  vertex : List Vertex
  parent : Nat → Int
  discovered : Nat → Bool
  processed : Nat → Bool
  nvertex : Nat
  directed : Bool

/-- The `enum { MAX_VERTEX = 10000 }` from graph.cpp. -/
def MAX_VERTEX : Nat := 10000

/-- Replace the element at index `i` (no-op when out of range), as C++
`v[i] = f(v[i])` on a `std::vector`; all uses are guarded by a bounds check. -/
def updNth : List α → Nat → (α → α) → List α
  | [], _, _ => []
  | a :: l, 0, f => f a :: l
  | a :: l, n + 1, f => a :: updNth l n f

/-- The neighbor list of vertex `v` (`_vertex[v].neighbors`), defaulting to
`[]` out of bounds; used only to state properties, never inside the code. -/
def Graph.nbrsD (g : Graph) (v : Nat) : List Edge :=
  ((g.vertex[v]?).map Vertex.neighbors).getD []

/-- The indegree counter of vertex `v` (`_vertex[v].indegree`), defaulting to
`0` out of bounds; used only to state properties, never inside the code. -/
def Graph.indegD (g : Graph) (v : Nat) : Int :=
  ((g.vertex[v]?).map Vertex.indegree).getD 0

/-- The outdegree counter of vertex `v`, defaulting to `0` out of bounds. -/
def Graph.outdegD (g : Graph) (v : Nat) : Int :=
  ((g.vertex[v]?).map Vertex.outdegree).getD 0

/-- The `Graph::Graph(size_t n, bool directed)` exactly as written in graph.cpp:
`_vertex.reserve(n+1)` and `_parent.reserve(n+1)` only request capacity and
leave both vectors at size `0`, so the initialization loop
`for (size_t i = 0; i != _vertex.size(); ++i)` executes zero times.  The
`parent` map is irrelevant here (the real `_parent` has no valid entries);
the essential faithful fact is `vertex = []`. -/
def Graph.new (n : Nat) (directed : Bool) : Graph :=
  { vertex := []
    parent := fun _ => -1
    discovered := fun _ => false
    processed := fun _ => false
    nvertex := n
    directed := directed }

/-- Modelled from the spec: the initialized vertex storage that
`new(vertexCount, directed)` is specified to produce (entries for ids
`0..vertexCount` with zero degree counters and empty neighbor lists, parents
initialized to `-1`, clear bitsets).  The source constructor's
reserve-without-resize slip (settled in the claim about construction) leaves
the vector empty instead; every algorithm of the class presupposes this
initialized storage. -/
def Graph.init (n : Nat) (directed : Bool) : Graph :=
  { vertex := List.replicate (n + 1) ⟨0, 0, []⟩
    parent := fun _ => -1
    discovered := fun _ => false
    processed := fun _ => false
    nvertex := n
    directed := directed }

/-- The `Graph::add_edge(int x, int y, int weight)`: append `{weight, y}` to
`_vertex[x].neighbors`, then for a directed graph increment
`_vertex[x].outdegree` and `_vertex[y].indegree`.  The vector accesses
`_vertex[x]` (always) and `_vertex[y]` (directed only) are modelled with a
bounds check; `none` is the out-of-bounds access (UB in C++).  There is no
`[1, nvertex]` range validation in the source. -/
def Graph.add_edge (g : Graph) (x y : Nat) (w : Int) : Option Graph :=
  match g.vertex[x]? with
  | none => none
  | some _ =>
    let push := fun (vv : Vertex) => { vv with neighbors := vv.neighbors ++ [⟨w, y⟩] }
    let g1 : Graph := { g with vertex := updNth g.vertex x push }
    if g.directed then
      match g1.vertex[y]? with
      | none => none
      | some _ =>
        let incOut := fun (vv : Vertex) => { vv with outdegree := vv.outdegree + 1 }
        let incIn := fun (vv : Vertex) => { vv with indegree := vv.indegree + 1 }
        some { g1 with vertex := updNth (updNth g1.vertex x incOut) y incIn }
    else some g1

/-- The `Graph::read_graph(istream&)` with the stream replaced by the list of
parsed pairs: `add_edge(x, y, 0)` and, for undirected graphs, also
`add_edge(y, x, 0)`. -/
def Graph.read_graph : Graph → List (Nat × Nat) → Option Graph
  | g, [] => some g
  | g, (x, y) :: rest =>
    match g.add_edge x y 0 with
    | none => none
    | some g1 =>
      if g.directed then g1.read_graph rest
      else
        match g1.add_edge y x 0 with
        | none => none
        | some g2 => g2.read_graph rest

/-- The `Graph::unvisit()`: reset both bitsets to all-zeros. -/
def Graph.unvisit (g : Graph) : Graph :=
  { g with discovered := fun _ => false, processed := fun _ => false }

/-- The `_discovered[v] = true`. -/
def markDiscovered (g : Graph) (v : Nat) : Graph :=
  { g with discovered := fun i => if i = v then true else g.discovered i }

/-- The `_processed[v] = true`. -/
def markProcessed (g : Graph) (v : Nat) : Graph :=
  { g with processed := fun i => if i = v then true else g.processed i }

/-! ### Depth-first search (`Graph::do_dfs`, `Graph::dfs`) -/

/-- The edge loop `for (auto &e : _vertex[v].neighbors) do_dfs(e->to)`
inside `Graph::do_dfs`, with the recursive `do_dfs` call (at one lower fuel
level) abstracted as `rec`. -/
def dfsList (rec : Graph → Nat → Option (Graph × List Nat)) :
    Graph → List Edge → Option (Graph × List Nat)
  | g, [] => some (g, [])
  | g, e :: rest =>
    match rec g e.to with
    | none => none
    | some (g1, o1) =>
      match dfsList rec g1 rest with
      | none => none
      | some (g2, o2) => some (g2, o1 ++ o2)

/-- The `Graph::do_dfs(int v)`: if `v` is undiscovered, mark it discovered, emit
it (`cout << v`), recurse into every outgoing edge target in order, then mark
`v` processed.  The emitted ids are returned as a list. -/
def do_dfs : Nat → Graph → Nat → Option (Graph × List Nat)
  | 0, _, _ => none
  | fuel + 1, g, v =>
    if g.discovered v then some (g, [])
    else
      let g1 := markDiscovered g v
      match g1.vertex[v]? with
      | none => none
      | some vv =>
        match dfsList (fun g2 w => do_dfs fuel g2 w) g1 vv.neighbors with
        | none => none
        | some (g2, out) => some (markProcessed g2 v, v :: out)

/-- The sweep `for (i = 1; i <= _nvertex; ++i) if (!_processed[i]) do_dfs(i)`
at the end of `Graph::dfs`. -/
def dfsSweep (fuel : Nat) : Graph → List Nat → Option (Graph × List Nat)
  | g, [] => some (g, [])
  | g, i :: rest =>
    if g.processed i then dfsSweep fuel g rest
    else
      match do_dfs fuel g i with
      | none => none
      | some (g1, o1) =>
        match dfsSweep fuel g1 rest with
        | none => none
        | some (g2, o2) => some (g2, o1 ++ o2)

/-- The `Graph::dfs(int v)`: seed `do_dfs(v)` when `0 < v ≤ nvertex`, then sweep
all vertices `1..nvertex`, running `do_dfs` on each unprocessed one. -/
def Graph.dfs (fuel : Nat) (g : Graph) (v : Nat) : Option (Graph × List Nat) :=
  match (if 0 < v ∧ v ≤ g.nvertex then do_dfs fuel g v else some (g, [])) with
  | none => none
  | some (g1, o1) =>
    match dfsSweep fuel g1 (List.range' 1 g.nvertex) with
    | none => none
    | some (g2, o2) => some (g2, o1 ++ o2)

/-! ### Breadth-first search (`Graph::do_bfs`, `Graph::bfs`) -/

/-- One neighbor step of the `do_bfs` edge loop: an undiscovered target is
marked discovered and appended to the back of the queue. -/
def bfsVisit (p : Graph × List Nat) (e : Edge) : Graph × List Nat :=
  if p.1.discovered e.to then p
  else (markDiscovered p.1 e.to, p.2 ++ [e.to])

/-- The `while (!q.empty())` loop of `Graph::do_bfs`.  The queue is a list
with its head at the front; one iteration reads the front `x`, marks every
undiscovered neighbor discovered and appends it to the back of the queue,
marks `x` processed, emits `x`, and pops the front. -/
def bfsLoop : Nat → Graph → List Nat → Option (Graph × List Nat)
  | 0, _, _ => none
  | _ + 1, g, [] => some (g, [])
  | fuel + 1, g, x :: rest =>
    match g.vertex[x]? with
    | none => none
    | some vx =>
      let st := vx.neighbors.foldl bfsVisit (g, [])
      match bfsLoop fuel (markProcessed st.1 x) (rest ++ st.2) with
      | none => none
      | some (g2, out) => some (g2, x :: out)

/-- The `Graph::do_bfs(int start)`: push `start`, mark it discovered, and run the
queue loop. -/
def do_bfs (fuel : Nat) (g : Graph) (start : Nat) : Option (Graph × List Nat) :=
  bfsLoop fuel (markDiscovered g start) [start]

/-- The sweep `for (i = 1; i <= _nvertex; ++i) if (!_processed[i]) do_bfs(i)`
at the end of `Graph::bfs`. -/
def bfsSweep (fuel : Nat) : Graph → List Nat → Option (Graph × List Nat)
  | g, [] => some (g, [])
  | g, i :: rest =>
    if g.processed i then bfsSweep fuel g rest
    else
      match do_bfs fuel g i with
      | none => none
      | some (g1, o1) =>
        match bfsSweep fuel g1 rest with
        | none => none
        | some (g2, o2) => some (g2, o1 ++ o2)

/-- The `Graph::bfs(int start)`: seed `do_bfs(start)` when `0 < start ≤ nvertex`,
then sweep all vertices `1..nvertex`, running `do_bfs` on each unprocessed
one. -/
def Graph.bfs (fuel : Nat) (g : Graph) (start : Nat) : Option (Graph × List Nat) :=
  match (if 0 < start ∧ start ≤ g.nvertex then do_bfs fuel g start else some (g, [])) with
  | none => none
  | some (g1, o1) =>
    match bfsSweep fuel g1 (List.range' 1 g.nvertex) with
    | none => none
    | some (g2, o2) => some (g2, o1 ++ o2)

/-! ### Component enumeration (`Graph::find_components`) -/

/-- The loop of `Graph::find_components`: for each undiscovered vertex in
ascending order, report a component index and run the public `dfs` (the
source's chosen traversal) from it.  Output is the list of
(component index, ids emitted by that `dfs` call) pairs. -/
def fcLoop (fuel : Nat) : Graph → List Nat → Nat → Option (Graph × List (Nat × List Nat))
  | g, [], _ => some (g, [])
  | g, i :: rest, k =>
    if g.discovered i then fcLoop fuel g rest k
    else
      match g.dfs fuel i with
      | none => none
      | some (g1, o1) =>
        match fcLoop fuel g1 rest (k + 1) with
        | none => none
        | some (g2, comps) => some (g2, (k, o1) :: comps)

/-- The `Graph::find_components()`. -/
def Graph.find_components (fuel : Nat) (g : Graph) : Option (Graph × List (Nat × List Nat)) :=
  fcLoop fuel g (List.range' 1 g.nvertex) 1

/-! ### Undirected cycle detection (`Graph::detect_undirected_cycle`) -/

/-- The edge loop of `Graph::detect_undirected_cycle`: an undiscovered
neighbor gets `parent[e.to] := v` and a recursive call (abstracted as `rec`;
a true result is `goto found`); a discovered neighbor that is not
`parent[v]` is `goto found`. -/
def ducList (rec : Graph → Nat → Option (Graph × Bool)) :
    Graph → Nat → List Edge → Option (Graph × Bool)
  | g, _, [] => some (g, false)
  | g, v, e :: rest =>
    if g.discovered e.to then
      if g.parent v = (e.to : Int) then ducList rec g v rest
      else some (g, true)
    else
      let g1 : Graph := { g with parent := fun i => if i = e.to then (v : Int) else g.parent i }
      match rec g1 e.to with
      | none => none
      | some (g2, true) => some (g2, true)
      | some (g2, false) => ducList rec g2 v rest

/-- The `Graph::detect_undirected_cycle(int v)`: a parent-tracking DFS.  On an
already discovered `v` it returns false; otherwise it marks `v` discovered
and scans the outgoing edges. -/
def detect_undirected_cycle : Nat → Graph → Nat → Option (Graph × Bool)
  | 0, _, _ => none
  | fuel + 1, g, v =>
    if g.discovered v then some (g, false)
    else
      let g1 := markDiscovered g v
      match g1.vertex[v]? with
      | none => none
      | some vv => ducList (fun g2 w => detect_undirected_cycle fuel g2 w) g1 v vv.neighbors

/-! ### Directed cycle detection (`Graph::detect_directed_cycle`) -/

/-- The seeding loop: `for (i = 1; i <= _nvertex; ++i) if (0 ==
_vertex[i].indegree) s.push(i)`.  The stack is a list with its head at the
top, so a push is a cons. -/
def seedLoop : Graph → List Nat → List Nat → Option (List Nat)
  | _, [], s => some s
  | g, i :: rest, s =>
    match g.vertex[i]? with
    | none => none
    | some vv => seedLoop g rest (if vv.indegree = 0 then i :: s else s)

/-- The `--_vertex[t].indegree`, returning the decremented graph together with
the new counter value (the value tested against `0` in the source). -/
def decIndegree (g : Graph) (t : Nat) : Option (Graph × Int) :=
  match g.vertex[t]? with
  | none => none
  | some vv =>
    let dec := fun (u : Vertex) => { u with indegree := u.indegree - 1 }
    some ({ g with vertex := updNth g.vertex t dec }, vv.indegree - 1)

/-- The edge loop of one `detect_directed_cycle` iteration:
`for (auto &e : _vertex[v].neighbors) if (0 == --_vertex[e->to].indegree)
s.push(e->to)`. -/
def decLoop : Graph → List Nat → List Edge → Option (Graph × List Nat)
  | g, s, [] => some (g, s)
  | g, s, e :: rest =>
    match decIndegree g e.to with
    | none => none
    | some (g1, nv) => decLoop g1 (if nv = 0 then e.to :: s else s) rest

/-- The `while (!s.empty())` loop of `Graph::detect_directed_cycle`: pop `v`,
decrement the indegree of each edge target (pushing targets that reach `0`),
and count `v` processed.  The pop order is also returned as a ghost trace
(the C++ code only increments `nprocessed`). -/
def kahnLoop : Nat → Graph → List Nat → Nat → List Nat → Option (Graph × Nat × List Nat)
  | 0, _, _, _, _ => none
  | _ + 1, g, [], nproc, order => some (g, nproc, order)
  | fuel + 1, g, v :: s, nproc, order =>
    match g.vertex[v]? with
    | none => none
    | some vv =>
      match decLoop g s vv.neighbors with
      | none => none
      | some (g1, s1) => kahnLoop fuel g1 s1 (nproc + 1) (order ++ [v])

/-- The `Graph::detect_directed_cycle()`: seed the stack with the zero-indegree
vertices, run the elimination loop, and report `nprocessed != _nvertex`. -/
def detect_directed_cycle (fuel : Nat) (g : Graph) : Option (Graph × Bool × List Nat) :=
  match seedLoop g (List.range' 1 g.nvertex) [] with
  | none => none
  | some s =>
    match kahnLoop fuel g s 0 [] with
    | none => none
    | some (g1, nproc, order) =>
      some (g1, if nproc = g.nvertex then false else true, order)

/-- The undirected branch of `Graph::has_cycle`:
`for (i = 1; i <= _nvertex; ++i) if (!_discovered[i])
cycle |= detect_undirected_cycle(i);` (no short-circuit). -/
def undirectedScan (fuel : Nat) : Graph → List Nat → Bool → Option (Graph × Bool)
  | g, [], acc => some (g, acc)
  | g, i :: rest, acc =>
    if g.discovered i then undirectedScan fuel g rest acc
    else
      match detect_undirected_cycle fuel g i with
      | none => none
      | some (g1, b) => undirectedScan fuel g1 rest (acc || b)

/-- The `Graph::has_cycle()`: when `_nvertex > 0`, `unvisit()` and dispatch on
directedness; otherwise return false without touching anything. -/
def Graph.has_cycle (fuel : Nat) (g : Graph) : Option (Graph × Bool) :=
  if 0 < g.nvertex then
    let g0 := g.unvisit
    if g.directed then
      match detect_directed_cycle fuel g0 with
      | none => none
      | some (g1, b, _) => some (g1, b)
    else undirectedScan fuel g0 (List.range' 1 g.nvertex) false
  else some (g, false)

/-! ### Specification-side notions -/

/-- Count of edges from `u` to `v` (parallel edges counted). -/
def cntE (g : Graph) (u v : Nat) : Nat :=
  (g.nbrsD u).countP (fun e => e.to = v)

/-- Number of directed edges into `v` from sources in `1..nvertex`. -/
def inCnt (g : Graph) (v : Nat) : Nat :=
  Finset.sum (Finset.Ico 1 (g.nvertex + 1)) (fun u => cntE g u v)

/-- Well-formed graph: storage holds entries `0..nvertex`, the vertex count
fits the bitsets, and every stored edge has its target in `[1, nvertex]`. -/
def WF (g : Graph) : Prop :=
  g.vertex.length = g.nvertex + 1 ∧
  g.nvertex ≤ MAX_VERTEX ∧
  ∀ u ∈ List.range' 1 g.nvertex, ∀ e ∈ g.nbrsD u, 1 ≤ e.to ∧ e.to ≤ g.nvertex

instance (g : Graph) : Decidable (WF g) := by
  unfold WF; infer_instance

/-- The indegree counters hold exactly the number of stored incoming edges,
as `add_edge` maintains for a directed graph (the state of a first
`has_cycle` call). -/
def Accurate (g : Graph) : Prop :=
  ∀ v ∈ List.range' 1 g.nvertex, g.indegD v = (inCnt g v : Int)

instance (g : Graph) : Decidable (Accurate g) := by
  unfold Accurate; infer_instance

/-- One stored directed edge from `u` to `v`, with `u` a real vertex. -/
def edgeRel (g : Graph) (u v : Nat) : Prop :=
  u ∈ List.range' 1 g.nvertex ∧ ∃ e ∈ g.nbrsD u, e.to = v

instance (g : Graph) (u v : Nat) : Decidable (edgeRel g u v) := by
  unfold edgeRel; infer_instance

/-- The graph contains a directed cycle: a nonempty edge path from some
vertex back to itself. -/
def HasDirectedCycle (g : Graph) : Prop :=
  ∃ v, Relation.TransGen (edgeRel g) v v

/-- The spec invariant `processed[v] ⇒ discovered[v]`. -/
def ProcSubDisc (g : Graph) : Prop :=
  ∀ v, g.processed v = true → g.discovered v = true

/-- What a traversal step does to the state: the structural members
(`_vertex`, `_nvertex`, `_directed`) are untouched and the two visitation
bitsets only gain bits. -/
def Step (g g' : Graph) : Prop :=
  g'.vertex = g.vertex ∧ g'.nvertex = g.nvertex ∧ g'.directed = g.directed ∧
  (∀ v, g.discovered v = true → g'.discovered v = true) ∧
  (∀ v, g.processed v = true → g'.processed v = true)

/-- What a Kahn-elimination step does to the state: only the degree counters
inside `vertex` may change; everything else, including the neighbor lists and
the storage size, is untouched. -/
def DegOnly (g g' : Graph) : Prop :=
  g'.vertex.length = g.vertex.length ∧ g'.nbrsD = g.nbrsD ∧
  g'.parent = g.parent ∧ g'.discovered = g.discovered ∧
  g'.processed = g.processed ∧ g'.nvertex = g.nvertex ∧ g'.directed = g.directed

/-- The invariant of the `detect_directed_cycle` elimination loop, relating
the original graph `g0` to the current state `g`, the list `popped` of
vertices popped so far (in order) and the current stack `s`. -/
structure KInv (g0 g : Graph) (popped s : List Nat) : Prop where
  deg : DegOnly g0 g
  popped_sub : ∀ v ∈ popped, v ∈ List.range' 1 g0.nvertex
  s_sub : ∀ v ∈ s, v ∈ List.range' 1 g0.nvertex
  nodup : (popped ++ s).Nodup
  indeg : ∀ w, g.indegD w =
    g0.indegD w - Int.ofNat (Finset.sum popped.toFinset (fun u => cntE g0 u w))
  pushed_iff : ∀ v ∈ List.range' 1 g0.nvertex,
    ((v ∈ popped ∨ v ∈ s) ↔ g.indegD v ≤ 0)
  order_topo : ∀ u v, edgeRel g0 u v → v ∈ popped →
    popped.indexOf u < popped.indexOf v

/-- Number of vertices in `1..nvertex` whose current indegree counter is
still positive; together with the stack size this bounds the remaining
iterations of the elimination loop. -/
def posCard (g : Graph) : Nat :=
  ((Finset.Ico 1 (g.nvertex + 1)).filter (fun v => 0 < g.indegD v)).card

/-! ### Concrete scenario graphs -/

/-- Scenario A: vertices `{1,2,3}`, directed edges `1→2, 2→3`. -/
def gA : Graph := ((Graph.init 3 true).read_graph [(1, 2), (2, 3)]).getD (Graph.init 3 true)

/-- Scenario B: vertices `{1,2,3}`, directed edges `1→2, 2→3, 3→1`. -/
def gB : Graph :=
  ((Graph.init 3 true).read_graph [(1, 2), (2, 3), (3, 1)]).getD (Graph.init 3 true)

/-- Scenario C: undirected, vertices `{1,2,3,4}`, edges `1–2, 2–3` inserted
symmetrically by `read_graph`. -/
def gC : Graph := ((Graph.init 4 false).read_graph [(1, 2), (2, 3)]).getD (Graph.init 4 false)

/-- Scenario D: undirected triangle on `{1,2,3}`, inserted symmetrically. -/
def gD : Graph :=
  ((Graph.init 3 false).read_graph [(1, 2), (2, 3), (3, 1)]).getD (Graph.init 3 false)

/-- Directed graph on `{1,2,3}` with edges `1→2, 2→3, 3→2`: a cycle `2↔3`
fed by an acyclic part. -/
def gE : Graph :=
  ((Graph.init 3 true).read_graph [(1, 2), (2, 3), (3, 2)]).getD (Graph.init 3 true)

/-! ### Basic lemmas about the state primitives -/

theorem step_refl (g : Graph) : Step g g :=
  ⟨rfl, rfl, rfl, fun _ h => h, fun _ h => h⟩

theorem step_trans {g1 g2 g3 : Graph} (h1 : Step g1 g2) (h2 : Step g2 g3) : Step g1 g3 :=
  ⟨h2.1.trans h1.1, h2.2.1.trans h1.2.1, h2.2.2.1.trans h1.2.2.1,
    fun v hv => h2.2.2.2.1 v (h1.2.2.2.1 v hv),
    fun v hv => h2.2.2.2.2 v (h1.2.2.2.2 v hv)⟩

@[simp] theorem markDiscovered_vertex (g : Graph) (v : Nat) :
    (markDiscovered g v).vertex = g.vertex := rfl

@[simp] theorem markDiscovered_nvertex (g : Graph) (v : Nat) :
    (markDiscovered g v).nvertex = g.nvertex := rfl

@[simp] theorem markDiscovered_processed (g : Graph) (v : Nat) :
    (markDiscovered g v).processed = g.processed := rfl

@[simp] theorem markProcessed_vertex (g : Graph) (v : Nat) :
    (markProcessed g v).vertex = g.vertex := rfl

@[simp] theorem markProcessed_nvertex (g : Graph) (v : Nat) :
    (markProcessed g v).nvertex = g.nvertex := rfl

@[simp] theorem markProcessed_discovered (g : Graph) (v : Nat) :
    (markProcessed g v).discovered = g.discovered := rfl

theorem markDiscovered_discovered_self (g : Graph) (v : Nat) :
    (markDiscovered g v).discovered v = true := by
  simp [markDiscovered]

theorem markDiscovered_discovered_mono (g : Graph) (v w : Nat)
    (h : g.discovered w = true) : (markDiscovered g v).discovered w = true := by
  simp only [markDiscovered]
  split <;> simp [h]

theorem markProcessed_processed_self (g : Graph) (v : Nat) :
    (markProcessed g v).processed v = true := by
  simp [markProcessed]

theorem markProcessed_processed_mono (g : Graph) (v w : Nat)
    (h : g.processed w = true) : (markProcessed g v).processed w = true := by
  simp only [markProcessed]
  split <;> simp [h]

theorem step_markDiscovered (g : Graph) (v : Nat) : Step g (markDiscovered g v) :=
  ⟨rfl, rfl, rfl, fun w hw => markDiscovered_discovered_mono g v w hw, fun _ h => h⟩

theorem step_markProcessed (g : Graph) (v : Nat) : Step g (markProcessed g v) :=
  ⟨rfl, rfl, rfl, fun _ h => h, fun w hw => markProcessed_processed_mono g v w hw⟩

theorem ProcSubDisc_markDiscovered {g : Graph} (h : ProcSubDisc g) (v : Nat) :
    ProcSubDisc (markDiscovered g v) := by
  intro w hw
  exact markDiscovered_discovered_mono g v w (h w hw)

/-! ### Mutual-induction lemmas for `do_dfs` -/

theorem dfsList_aux {fuel : Nat}
    (IH : ∀ g v g' o, do_dfs fuel g v = some (g', o) →
      Step g g' ∧ g'.discovered v = true ∧ (ProcSubDisc g → ProcSubDisc g')) :
    ∀ es g g' o, dfsList (fun g2 w => do_dfs fuel g2 w) g es = some (g', o) →
      Step g g' ∧ (ProcSubDisc g → ProcSubDisc g') := by
  intro es
  induction es with
  | nil =>
    intro g g' o h
    simp only [dfsList, Option.some.injEq, Prod.mk.injEq] at h
    obtain ⟨rfl, rfl⟩ := h
    exact ⟨step_refl g, id⟩
  | cons e rest ih =>
    intro g g' o h
    simp only [dfsList] at h
    cases hd : do_dfs fuel g e.to with
    | none => rw [hd] at h; exact absurd h (by simp)
    | some r =>
      obtain ⟨g1, o1⟩ := r
      rw [hd] at h
      dsimp only at h
      cases hrest : dfsList (fun g2 w => do_dfs fuel g2 w) g1 rest with
      | none => rw [hrest] at h; exact absurd h (by simp)
      | some r2 =>
        obtain ⟨g2, o2⟩ := r2
        rw [hrest] at h
        dsimp only at h
        simp only [Option.some.injEq, Prod.mk.injEq] at h
        obtain ⟨rfl, rfl⟩ := h
        obtain ⟨hs1, _, hp1⟩ := IH g e.to g1 o1 hd
        obtain ⟨hs2, hp2⟩ := ih g1 g2 o2 hrest
        exact ⟨step_trans hs1 hs2, fun hp => hp2 (hp1 hp)⟩

theorem do_dfs_some :
    ∀ fuel g v g' o, do_dfs fuel g v = some (g', o) →
      Step g g' ∧ g'.discovered v = true ∧ (ProcSubDisc g → ProcSubDisc g') := by
  intro fuel
  induction fuel with
  | zero => intro g v g' o h; simp [do_dfs] at h
  | succ fuel ih =>
    intro g v g' o h
    simp only [do_dfs] at h
    by_cases hd : g.discovered v
    · rw [if_pos hd] at h
      simp only [Option.some.injEq, Prod.mk.injEq] at h
      obtain ⟨rfl, rfl⟩ := h
      exact ⟨step_refl g, hd, id⟩
    · rw [if_neg hd] at h
      cases hv : (markDiscovered g v).vertex[v]? with
      | none => rw [hv] at h; exact absurd h (by simp)
      | some vv =>
        rw [hv] at h
        dsimp only at h
        cases hl : dfsList (fun g2 w => do_dfs fuel g2 w) (markDiscovered g v) vv.neighbors with
        | none => rw [hl] at h; exact absurd h (by simp)
        | some r =>
          obtain ⟨g2, out⟩ := r
          rw [hl] at h
          dsimp only at h
          simp only [Option.some.injEq, Prod.mk.injEq] at h
          obtain ⟨rfl, rfl⟩ := h
          obtain ⟨hs2, hp2⟩ := dfsList_aux ih vv.neighbors (markDiscovered g v) g2 out hl
          have hdisc2 : g2.discovered v = true :=
            hs2.2.2.2.1 v (markDiscovered_discovered_self g v)
          refine ⟨step_trans (step_trans (step_markDiscovered g v) hs2) (step_markProcessed g2 v),
            ?_, ?_⟩
          · show (markProcessed g2 v).discovered v = true
            rw [markProcessed_discovered]; exact hdisc2
          · intro hp
            intro w hw
            rw [markProcessed_discovered]
            by_cases hwv : w = v
            · subst hwv; exact hdisc2
            · have : g2.processed w = true := by
                have := hw
                simp only [markProcessed] at this
                rw [if_neg hwv] at this
                exact this
              exact hp2 (ProcSubDisc_markDiscovered hp v) w this

theorem do_dfs_noop {fuel : Nat} {g : Graph} {v : Nat} (hf : 0 < fuel)
    (hd : g.discovered v = true) : do_dfs fuel g v = some (g, []) := by
  cases fuel with
  | zero => exact absurd hf (by simp)
  | succ fuel => simp [do_dfs, hd]

theorem dfsSweep_some {fuel : Nat} :
    ∀ l g g' o, dfsSweep fuel g l = some (g', o) →
      Step g g' ∧ (ProcSubDisc g → ProcSubDisc g') ∧
        ∀ i ∈ l, g'.discovered i = true ∨ g'.processed i = true := by
  intro l
  induction l with
  | nil =>
    intro g g' o h
    simp only [dfsSweep, Option.some.injEq, Prod.mk.injEq] at h
    obtain ⟨rfl, rfl⟩ := h
    exact ⟨step_refl g, id, by simp⟩
  | cons i rest ih =>
    intro g g' o h
    simp only [dfsSweep] at h
    by_cases hp : g.processed i
    · rw [if_pos hp] at h
      obtain ⟨hs, hpsd, hall⟩ := ih g g' o h
      refine ⟨hs, hpsd, ?_⟩
      intro j hj
      rcases List.mem_cons.mp hj with rfl | hj
      · exact Or.inr (hs.2.2.2.2 j hp)
      · exact hall j hj
    · rw [if_neg hp] at h
      cases hd : do_dfs fuel g i with
      | none => rw [hd] at h; exact absurd h (by simp)
      | some r =>
        obtain ⟨g1, o1⟩ := r
        rw [hd] at h
        dsimp only at h
        cases hrest : dfsSweep fuel g1 rest with
        | none => rw [hrest] at h; exact absurd h (by simp)
        | some r2 =>
          obtain ⟨g2, o2⟩ := r2
          rw [hrest] at h
          dsimp only at h
          simp only [Option.some.injEq, Prod.mk.injEq] at h
          obtain ⟨rfl, rfl⟩ := h
          obtain ⟨hs1, hd1, hp1⟩ := do_dfs_some fuel g i g1 o1 hd
          obtain ⟨hs2, hp2, hall⟩ := ih g1 g2 o2 hrest
          refine ⟨step_trans hs1 hs2, fun hx => hp2 (hp1 hx), ?_⟩
          intro j hj
          rcases List.mem_cons.mp hj with rfl | hj
          · exact Or.inl (hs2.2.2.2.1 j hd1)
          · exact hall j hj

/-- What one completed public `dfs` call guarantees. -/
theorem dfs_some {fuel : Nat} {g g' : Graph} {v : Nat} {o : List Nat}
    (h : g.dfs fuel v = some (g', o)) :
    Step g g' ∧ (ProcSubDisc g → ProcSubDisc g') ∧
      (∀ i ∈ List.range' 1 g.nvertex, g'.discovered i = true ∨ g'.processed i = true) ∧
      (0 < v ∧ v ≤ g.nvertex → g'.discovered v = true) := by
  unfold Graph.dfs at h
  by_cases hv : 0 < v ∧ v ≤ g.nvertex
  · rw [if_pos hv] at h
    cases hd : do_dfs fuel g v with
    | none => rw [hd] at h; exact absurd h (by simp)
    | some r =>
      obtain ⟨g1, o1⟩ := r
      rw [hd] at h
      dsimp only at h
      cases hsw : dfsSweep fuel g1 (List.range' 1 g.nvertex) with
      | none => rw [hsw] at h; exact absurd h (by simp)
      | some r2 =>
        obtain ⟨g2, o2⟩ := r2
        rw [hsw] at h
        dsimp only at h
        simp only [Option.some.injEq, Prod.mk.injEq] at h
        obtain ⟨rfl, rfl⟩ := h
        obtain ⟨hs1, hd1, hp1⟩ := do_dfs_some fuel g v g1 o1 hd
        obtain ⟨hs2, hp2, hall⟩ := dfsSweep_some (List.range' 1 g.nvertex) g1 g2 o2 hsw
        exact ⟨step_trans hs1 hs2, fun hx => hp2 (hp1 hx), hall,
          fun _ => hs2.2.2.2.1 v hd1⟩
  · rw [if_neg hv] at h
    dsimp only at h
    cases hsw : dfsSweep fuel g (List.range' 1 g.nvertex) with
    | none => rw [hsw] at h; exact absurd h (by simp)
    | some r2 =>
      obtain ⟨g2, o2⟩ := r2
      rw [hsw] at h
      dsimp only at h
      simp only [Option.some.injEq, Prod.mk.injEq] at h
      obtain ⟨rfl, rfl⟩ := h
      obtain ⟨hs2, hp2, hall⟩ := dfsSweep_some (List.range' 1 g.nvertex) g g2 o2 hsw
      exact ⟨hs2, hp2, hall, fun hvv => absurd hvv hv⟩

/-- A sweep over vertices that are each processed or discovered does nothing
and emits nothing. -/
theorem dfsSweep_noop {fuel : Nat} (hf : 0 < fuel) :
    ∀ l g, (∀ i ∈ l, g.discovered i = true ∨ g.processed i = true) →
      dfsSweep fuel g l = some (g, []) := by
  intro l
  induction l with
  | nil => intro g _; simp [dfsSweep]
  | cons i rest ih =>
    intro g hall
    simp only [dfsSweep]
    by_cases hp : g.processed i
    · rw [if_pos hp]
      exact ih g (fun j hj => hall j (List.mem_cons_of_mem i hj))
    · rw [if_neg hp]
      have hd : g.discovered i = true := by
        rcases hall i (List.mem_cons_self i rest) with h | h
        · exact h
        · exact absurd h hp
      rw [do_dfs_noop hf hd]
      dsimp only
      rw [ih g (fun j hj => hall j (List.mem_cons_of_mem i hj))]
      rfl

/-- Running the public `dfs` a second time from the same start, after a
completed run, returns the identical state and emits nothing. -/
theorem dfs_second {fuel : Nat} {g : Graph} {v : Nat} (hf : 0 < fuel)
    (hd : g.discovered v = true)
    (hall : ∀ i ∈ List.range' 1 g.nvertex, g.discovered i = true ∨ g.processed i = true) :
    g.dfs fuel v = some (g, []) := by
  unfold Graph.dfs
  by_cases hv : 0 < v ∧ v ≤ g.nvertex
  · rw [if_pos hv, do_dfs_noop hf hd]
    dsimp only
    rw [dfsSweep_noop hf (List.range' 1 g.nvertex) g hall]
    rfl
  · rw [if_neg hv]
    dsimp only
    rw [dfsSweep_noop hf (List.range' 1 g.nvertex) g hall]
    rfl

/-! ### Lemmas for `do_bfs` -/

theorem nbrsD_congr {g g' : Graph} (h : g'.vertex = g.vertex) : g'.nbrsD = g.nbrsD := by
  funext v
  simp [Graph.nbrsD, h]

theorem fold_bfsVisit_vertex :
    ∀ (es : List Edge) (p : Graph × List Nat),
      (es.foldl bfsVisit p).1.vertex = p.1.vertex := by
  intro es
  induction es with
  | nil => intro p; rfl
  | cons e rest ih =>
    intro p
    simp only [List.foldl_cons]
    rw [ih (bfsVisit p e)]
    unfold bfsVisit
    split <;> rfl

theorem fold_bfsVisit_processed :
    ∀ (es : List Edge) (p : Graph × List Nat),
      (es.foldl bfsVisit p).1.processed = p.1.processed := by
  intro es
  induction es with
  | nil => intro p; rfl
  | cons e rest ih =>
    intro p
    simp only [List.foldl_cons]
    rw [ih (bfsVisit p e)]
    unfold bfsVisit
    split <;> rfl

theorem fold_bfsVisit_step :
    ∀ (es : List Edge) (p : Graph × List Nat), Step p.1 (es.foldl bfsVisit p).1 := by
  intro es
  induction es with
  | nil => intro p; exact step_refl p.1
  | cons e rest ih =>
    intro p
    simp only [List.foldl_cons]
    refine step_trans ?_ (ih (bfsVisit p e))
    unfold bfsVisit
    split
    · exact step_refl p.1
    · exact step_markDiscovered p.1 e.to

theorem fold_bfsVisit_targets :
    ∀ (es : List Edge) (p : Graph × List Nat),
      ∀ e ∈ es, (es.foldl bfsVisit p).1.discovered e.to = true := by
  intro es
  induction es with
  | nil => intro p e he; exact absurd he (by simp)
  | cons e rest ih =>
    intro p f hf
    rcases List.mem_cons.mp hf with rfl | hf
    · simp only [List.foldl_cons]
      refine (fold_bfsVisit_step rest (bfsVisit p f)).2.2.2.1 f.to ?_
      unfold bfsVisit
      split
      · assumption
      · exact markDiscovered_discovered_self p.1 f.to
    · simp only [List.foldl_cons]
      exact ih (bfsVisit p e) f hf

theorem fold_bfsVisit_queue :
    ∀ (es : List Edge) (p : Graph × List Nat),
      (∀ x ∈ p.2, p.1.discovered x = true) →
      ∀ x ∈ (es.foldl bfsVisit p).2, (es.foldl bfsVisit p).1.discovered x = true := by
  intro es
  induction es with
  | nil => intro p hp x hx; exact hp x hx
  | cons e rest ih =>
    intro p hp x hx
    simp only [List.foldl_cons] at hx ⊢
    refine ih (bfsVisit p e) ?_ x hx
    intro y hy
    unfold bfsVisit at hy ⊢
    split at hy
    · next hde =>
      simp only [if_pos hde] at hy ⊢
      exact hp y hy
    · next hde =>
      simp only [if_neg hde] at hy ⊢
      rcases List.mem_append.mp hy with hy | hy
      · exact markDiscovered_discovered_mono p.1 e.to y (hp y hy)
      · have hye : y = e.to := by simpa using hy
        rw [hye]
        exact markDiscovered_discovered_self p.1 e.to

theorem fold_bfsVisit_noop :
    ∀ (es : List Edge) (p : Graph × List Nat),
      (∀ e ∈ es, p.1.discovered e.to = true) → es.foldl bfsVisit p = p := by
  intro es
  induction es with
  | nil => intro p _; rfl
  | cons e rest ih =>
    intro p hall
    simp only [List.foldl_cons]
    have he : bfsVisit p e = p := by
      unfold bfsVisit
      rw [if_pos (hall e (List.mem_cons_self e rest))]
    rw [he]
    exact ih p (fun f hf => hall f (List.mem_cons_of_mem e hf))

theorem bfsLoop_some :
    ∀ fuel g q g' o, bfsLoop fuel g q = some (g', o) →
      Step g g' ∧ (∀ x ∈ q, g'.processed x = true) ∧
      (∀ x ∈ q, ∀ e ∈ g.nbrsD x, g'.discovered e.to = true) ∧
      (∀ x ∈ q, (g.vertex[x]?).isSome = true) ∧
      ((∀ x ∈ q, g.discovered x = true) → ProcSubDisc g → ProcSubDisc g') := by
  intro fuel
  induction fuel with
  | zero => intro g q g' o h; simp [bfsLoop] at h
  | succ fuel ih =>
    intro g q g' o h
    match q with
    | [] =>
      simp only [bfsLoop, Option.some.injEq, Prod.mk.injEq] at h
      obtain ⟨rfl, rfl⟩ := h
      exact ⟨step_refl g, by simp, by simp, by simp, fun _ h => h⟩
    | x :: rest =>
      simp only [bfsLoop] at h
      cases hv : g.vertex[x]? with
      | none => rw [hv] at h; exact absurd h (by simp)
      | some vx =>
        rw [hv] at h
        dsimp only at h
        cases hrec : bfsLoop fuel (markProcessed (vx.neighbors.foldl bfsVisit (g, [])).1 x)
            (rest ++ (vx.neighbors.foldl bfsVisit (g, [])).2) with
        | none => rw [hrec] at h; exact absurd h (by simp)
        | some r =>
          obtain ⟨g2, out⟩ := r
          rw [hrec] at h
          dsimp only at h
          simp only [Option.some.injEq, Prod.mk.injEq] at h
          obtain ⟨rfl, rfl⟩ := h
          set st := vx.neighbors.foldl bfsVisit (g, []) with hst
          obtain ⟨hs2, hproc2, hnbr2, hb2, hpsd2⟩ := ih _ _ _ _ hrec
          have hstep : Step g g2 :=
            step_trans (step_trans (fold_bfsVisit_step vx.neighbors (g, []))
              (step_markProcessed st.1 x)) hs2
          have hvx : g.nbrsD x = vx.neighbors := by
            simp [Graph.nbrsD, hv]
          have hvtx : (markProcessed st.1 x).vertex = g.vertex := by
            rw [markProcessed_vertex]
            exact fold_bfsVisit_vertex vx.neighbors (g, [])
          refine ⟨hstep, ?_, ?_, ?_, ?_⟩
          · intro y hy
            rcases List.mem_cons.mp hy with rfl | hy
            · exact hs2.2.2.2.2 y (markProcessed_processed_self st.1 y)
            · exact hproc2 y (List.mem_append_left _ hy)
          · intro y hy e he
            rcases List.mem_cons.mp hy with rfl | hy
            · rw [hvx] at he
              have := fold_bfsVisit_targets vx.neighbors (g, []) e he
              exact hs2.2.2.2.1 e.to ((step_markProcessed st.1 y).2.2.2.1 e.to this)
            · refine hnbr2 y (List.mem_append_left _ hy) e ?_
              rw [nbrsD_congr hvtx]
              exact he
          · intro y hy
            rcases List.mem_cons.mp hy with rfl | hy
            · simp [hv]
            · have := hb2 y (List.mem_append_left _ hy)
              rw [hvtx] at this
              exact this
          · intro hq hpsd
            refine hpsd2 ?_ ?_
            · intro y hy
              rcases List.mem_append.mp hy with hy | hy
              · refine (step_markProcessed st.1 x).2.2.2.1 y ?_
                exact (fold_bfsVisit_step vx.neighbors (g, [])).2.2.2.1 y
                  (hq y (List.mem_cons_of_mem x hy))
              · refine (step_markProcessed st.1 x).2.2.2.1 y ?_
                exact fold_bfsVisit_queue vx.neighbors (g, []) (by simp) y hy
            · intro w hw
              have hw2 : st.1.processed w = true ∨ w = x := by
                by_cases hwx : w = x
                · exact Or.inr hwx
                · left
                  have := hw
                  simp only [markProcessed] at this
                  rw [if_neg hwx] at this
                  exact this
              rcases hw2 with hw2 | rfl
              · rw [fold_bfsVisit_processed] at hw2
                refine (step_markProcessed st.1 x).2.2.2.1 w ?_
                exact (fold_bfsVisit_step vx.neighbors (g, [])).2.2.2.1 w (hpsd w hw2)
              · refine (step_markProcessed st.1 w).2.2.2.1 w ?_
                exact (fold_bfsVisit_step vx.neighbors (g, [])).2.2.2.1 w
                  (hq w (List.mem_cons_self w rest))

theorem mem_range1 {v n : Nat} : v ∈ List.range' 1 n ↔ 1 ≤ v ∧ v ≤ n := by
  rw [List.mem_range'_1]
  omega

theorem do_bfs_some {fuel : Nat} {g g' : Graph} {start : Nat} {o : List Nat}
    (h : do_bfs fuel g start = some (g', o)) :
    Step g g' ∧ g'.processed start = true ∧ g'.discovered start = true ∧
      (∀ e ∈ g.nbrsD start, g'.discovered e.to = true) ∧
      (g.vertex[start]?).isSome = true ∧
      (ProcSubDisc g → ProcSubDisc g') := by
  unfold do_bfs at h
  obtain ⟨hs, hproc, hnbr, hb, hpsd⟩ := bfsLoop_some fuel _ _ _ _ h
  have hmem : start ∈ [start] := List.mem_singleton.mpr rfl
  refine ⟨step_trans (step_markDiscovered g start) hs, hproc start hmem, ?_, ?_, ?_, ?_⟩
  · exact hs.2.2.2.1 start (markDiscovered_discovered_self g start)
  · intro e he
    refine hnbr start hmem e ?_
    rw [nbrsD_congr (markDiscovered_vertex g start)]
    exact he
  · have := hb start hmem
    rw [markDiscovered_vertex] at this
    exact this
  · intro hpsd0
    refine hpsd ?_ (ProcSubDisc_markDiscovered hpsd0 start)
    intro x hx
    rw [List.mem_singleton.mp hx]
    exact markDiscovered_discovered_self g start

theorem bfsSweep_some {fuel : Nat} :
    ∀ l g g' o, bfsSweep fuel g l = some (g', o) →
      Step g g' ∧ (∀ i ∈ l, g'.processed i = true) ∧
        (ProcSubDisc g → ProcSubDisc g') := by
  intro l
  induction l with
  | nil =>
    intro g g' o h
    simp only [bfsSweep, Option.some.injEq, Prod.mk.injEq] at h
    obtain ⟨rfl, rfl⟩ := h
    exact ⟨step_refl g, by simp, id⟩
  | cons i rest ih =>
    intro g g' o h
    simp only [bfsSweep] at h
    by_cases hp : g.processed i
    · rw [if_pos hp] at h
      obtain ⟨hs, hall, hpsd⟩ := ih g g' o h
      refine ⟨hs, ?_, hpsd⟩
      intro j hj
      rcases List.mem_cons.mp hj with rfl | hj
      · exact hs.2.2.2.2 j hp
      · exact hall j hj
    · rw [if_neg hp] at h
      cases hd : do_bfs fuel g i with
      | none => rw [hd] at h; exact absurd h (by simp)
      | some r =>
        obtain ⟨g1, o1⟩ := r
        rw [hd] at h
        dsimp only at h
        cases hrest : bfsSweep fuel g1 rest with
        | none => rw [hrest] at h; exact absurd h (by simp)
        | some r2 =>
          obtain ⟨g2, o2⟩ := r2
          rw [hrest] at h
          dsimp only at h
          simp only [Option.some.injEq, Prod.mk.injEq] at h
          obtain ⟨rfl, rfl⟩ := h
          obtain ⟨hs1, hpr1, _, _, _, hpsd1⟩ := do_bfs_some hd
          obtain ⟨hs2, hall, hpsd2⟩ := ih g1 g2 o2 hrest
          refine ⟨step_trans hs1 hs2, ?_, fun hx => hpsd2 (hpsd1 hx)⟩
          intro j hj
          rcases List.mem_cons.mp hj with rfl | hj
          · exact hs2.2.2.2.2 j hpr1
          · exact hall j hj

theorem bfsSweep_noop {fuel : Nat} :
    ∀ l g, (∀ i ∈ l, g.processed i = true) → bfsSweep fuel g l = some (g, []) := by
  intro l
  induction l with
  | nil => intro g _; simp [bfsSweep]
  | cons i rest ih =>
    intro g hall
    simp only [bfsSweep]
    rw [if_pos (hall i (List.mem_cons_self i rest))]
    exact ih g (fun j hj => hall j (List.mem_cons_of_mem i hj))

/-- What one completed public `bfs` call guarantees. -/
theorem bfs_some {fuel : Nat} {g g' : Graph} {start : Nat} {o : List Nat}
    (h : g.bfs fuel start = some (g', o)) :
    Step g g' ∧ (∀ i ∈ List.range' 1 g.nvertex, g'.processed i = true) ∧
      (ProcSubDisc g → ProcSubDisc g') ∧
      (0 < start ∧ start ≤ g.nvertex →
        g'.discovered start = true ∧ g'.processed start = true ∧
          (∀ e ∈ g.nbrsD start, g'.discovered e.to = true) ∧
          (g.vertex[start]?).isSome = true) := by
  unfold Graph.bfs at h
  by_cases hv : 0 < start ∧ start ≤ g.nvertex
  · rw [if_pos hv] at h
    cases hd : do_bfs fuel g start with
    | none => rw [hd] at h; exact absurd h (by simp)
    | some r =>
      obtain ⟨g1, o1⟩ := r
      rw [hd] at h
      dsimp only at h
      cases hsw : bfsSweep fuel g1 (List.range' 1 g.nvertex) with
      | none => rw [hsw] at h; exact absurd h (by simp)
      | some r2 =>
        obtain ⟨g2, o2⟩ := r2
        rw [hsw] at h
        dsimp only at h
        simp only [Option.some.injEq, Prod.mk.injEq] at h
        obtain ⟨rfl, rfl⟩ := h
        obtain ⟨hs1, hpr1, hdi1, hnb1, hb1, hpsd1⟩ := do_bfs_some hd
        obtain ⟨hs2, hall, hpsd2⟩ := bfsSweep_some (List.range' 1 g.nvertex) g1 g2 o2 hsw
        refine ⟨step_trans hs1 hs2, hall, fun hx => hpsd2 (hpsd1 hx), fun _ => ?_⟩
        refine ⟨hs2.2.2.2.1 start hdi1, hs2.2.2.2.2 start hpr1, ?_, hb1⟩
        intro e he
        exact hs2.2.2.2.1 e.to (hnb1 e he)
  · rw [if_neg hv] at h
    dsimp only at h
    cases hsw : bfsSweep fuel g (List.range' 1 g.nvertex) with
    | none => rw [hsw] at h; exact absurd h (by simp)
    | some r2 =>
      obtain ⟨g2, o2⟩ := r2
      rw [hsw] at h
      dsimp only at h
      simp only [Option.some.injEq, Prod.mk.injEq] at h
      obtain ⟨rfl, rfl⟩ := h
      obtain ⟨hs2, hall, hpsd2⟩ := bfsSweep_some (List.range' 1 g.nvertex) g g2 o2 hsw
      exact ⟨hs2, hall, hpsd2, fun hvv => absurd hvv hv⟩

/-- Running the public `bfs` a second time from the same start, after a
completed run, re-emits exactly the start vertex: `do_bfs` enqueues and
prints the seed without checking the visitation state. -/
theorem bfs_second {fuel : Nat} {g1 : Graph} {v : Nat} (hf : 2 ≤ fuel)
    (hv : 0 < v ∧ v ≤ g1.nvertex)
    (hb : (g1.vertex[v]?).isSome = true)
    (hnb : ∀ e ∈ g1.nbrsD v, g1.discovered e.to = true)
    (hall : ∀ i ∈ List.range' 1 g1.nvertex, g1.processed i = true) :
    g1.bfs fuel v = some (markProcessed (markDiscovered g1 v) v, [v]) := by
  obtain ⟨k, rfl⟩ : ∃ k, fuel = k + 2 := ⟨fuel - 2, by omega⟩
  obtain ⟨vx, hvx⟩ := Option.isSome_iff_exists.mp hb
  have hvx1 : (markDiscovered g1 v).vertex[v]? = some vx := by
    rw [markDiscovered_vertex]; exact hvx
  have hnbrs : g1.nbrsD v = vx.neighbors := by simp [Graph.nbrsD, hvx]
  unfold Graph.bfs
  rw [if_pos hv]
  unfold do_bfs
  have hfold : vx.neighbors.foldl bfsVisit (markDiscovered g1 v, []) =
      (markDiscovered g1 v, []) := by
    refine fold_bfsVisit_noop vx.neighbors _ ?_
    intro e he
    refine markDiscovered_discovered_mono g1 v e.to ?_
    refine hnb e ?_
    rw [hnbrs]
    exact he
  have hloop : bfsLoop (k + 2) (markDiscovered g1 v) [v] =
      some (markProcessed (markDiscovered g1 v) v, [v]) := by
    simp only [bfsLoop, hvx1]
    rw [hfold]
    dsimp only
    simp [bfsLoop]
  rw [hloop]
  dsimp only
  have hsweep : bfsSweep (k + 2) (markProcessed (markDiscovered g1 v) v)
      (List.range' 1 g1.nvertex) = some (markProcessed (markDiscovered g1 v) v, []) := by
    refine bfsSweep_noop _ _ ?_
    intro i hi
    exact markProcessed_processed_mono _ v i (hall i hi)
  rw [hsweep]
  rfl

/-- General form of the corrected idempotence property: after a completed
`bfs(start)`, a second `bfs(start)` re-emits exactly `[start]` and changes no
visitation bit; after a completed `dfs(start)`, a second `dfs(start)` is a
complete no-op. -/
theorem second_run_behavior (g : Graph) (fuel start : Nat) (gb gd : Graph)
    (ob od : List Nat)
    (hv : 0 < start ∧ start ≤ g.nvertex) (hf : 2 ≤ fuel)
    (hbfs : g.bfs fuel start = some (gb, ob))
    (hdfs : g.dfs fuel start = some (gd, od)) :
    gb.bfs fuel start = some (markProcessed (markDiscovered gb start) start, [start]) ∧
    (∀ w, (markProcessed (markDiscovered gb start) start).discovered w = gb.discovered w) ∧
    (∀ w, (markProcessed (markDiscovered gb start) start).processed w = gb.processed w) ∧
    gd.dfs fuel start = some (gd, []) := by
  obtain ⟨hsB, hallB, _, hstartB⟩ := bfs_some hbfs
  obtain ⟨hdiB, hprB, hnbB, hbB⟩ := hstartB hv
  have hnv : gb.nvertex = g.nvertex := hsB.2.1
  have hvtx : gb.vertex = g.vertex := hsB.1
  refine ⟨?_, ?_, ?_, ?_⟩
  · refine bfs_second hf ⟨hv.1, ?_⟩ ?_ ?_ ?_
    · rw [hnv]; exact hv.2
    · rw [hvtx]; exact hbB
    · rw [nbrsD_congr hvtx]; exact hnbB
    · rw [hnv]; exact hallB
  · intro w
    show (markDiscovered gb start).discovered w = gb.discovered w
    simp only [markDiscovered]
    split
    · next hw => rw [hw, hdiB]
    · rfl
  · intro w
    show (if w = start then true else (markDiscovered gb start).processed w) = gb.processed w
    split
    · next hw => rw [hw, hprB]
    · rfl
  · obtain ⟨hsD, _, hallD, hdD⟩ := dfs_some hdfs
    refine dfs_second (by omega) (hdD hv) ?_
    rw [hsD.2.1]
    exact hallD

/-! ### Lemmas for `detect_directed_cycle` -/

theorem length_updNth : ∀ (l : List α) (i : Nat) (f : α → α),
    (updNth l i f).length = l.length := by
  intro l
  induction l with
  | nil => intro i f; rfl
  | cons a rest ih =>
    intro i f
    cases i with
    | zero => rfl
    | succ i => simp [updNth, ih]

theorem getElem?_updNth : ∀ (l : List α) (i : Nat) (f : α → α) (j : Nat),
    (updNth l i f)[j]? = if j = i then (l[i]?).map f else l[j]? := by
  intro l
  induction l with
  | nil => intro i f j; simp [updNth]
  | cons a rest ih =>
    intro i f j
    cases i with
    | zero =>
      cases j with
      | zero => simp [updNth]
      | succ j => simp [updNth]
    | succ i =>
      cases j with
      | zero => simp [updNth]
      | succ j =>
        simp only [updNth, List.getElem?_cons_succ, ih i f j]
        by_cases hj : j = i
        · rw [if_pos hj, if_pos (by omega : j + 1 = i + 1)]
        · rw [if_neg hj, if_neg (by omega : ¬j + 1 = i + 1)]

theorem degOnly_refl (g : Graph) : DegOnly g g :=
  ⟨rfl, rfl, rfl, rfl, rfl, rfl, rfl⟩

theorem degOnly_trans {g1 g2 g3 : Graph} (h1 : DegOnly g1 g2) (h2 : DegOnly g2 g3) :
    DegOnly g1 g3 :=
  ⟨h2.1.trans h1.1, h2.2.1.trans h1.2.1, h2.2.2.1.trans h1.2.2.1,
    h2.2.2.2.1.trans h1.2.2.2.1, h2.2.2.2.2.1.trans h1.2.2.2.2.1,
    h2.2.2.2.2.2.1.trans h1.2.2.2.2.2.1, h2.2.2.2.2.2.2.trans h1.2.2.2.2.2.2⟩

theorem decIndegree_some {g : Graph} {t : Nat} {g' : Graph} {nv : Int}
    (h : decIndegree g t = some (g', nv)) :
    DegOnly g g' ∧ nv = g.indegD t - 1 ∧
      (∀ w, g'.indegD w = if w = t then g.indegD t - 1 else g.indegD w) := by
  unfold decIndegree at h
  cases hv : g.vertex[t]? with
  | none => rw [hv] at h; exact absurd h (by simp)
  | some vv =>
    rw [hv] at h
    dsimp only at h
    simp only [Option.some.injEq, Prod.mk.injEq] at h
    obtain ⟨rfl, rfl⟩ := h
    have hit : g.indegD t = vv.indegree := by simp [Graph.indegD, hv]
    refine ⟨⟨length_updNth g.vertex t _, ?_, rfl, rfl, rfl, rfl, rfl⟩, by rw [hit], ?_⟩
    · funext u
      show (((updNth g.vertex t _)[u]?).map Vertex.neighbors).getD [] = g.nbrsD u
      rw [getElem?_updNth]
      by_cases hu : u = t
      · rw [if_pos hu, hu, hv]
        simp [Graph.nbrsD, hv]
      · rw [if_neg hu]
        rfl
    · intro w
      show (((updNth g.vertex t _)[w]?).map Vertex.indegree).getD 0 = _
      rw [getElem?_updNth]
      by_cases hw : w = t
      · rw [if_pos hw, if_pos hw, hv]
        simp [hit]
      · rw [if_neg hw, if_neg hw]
        rfl

theorem decLoop_some :
    ∀ (es : List Edge) (g : Graph) (s : List Nat) (g' : Graph) (s' : List Nat),
      decLoop g s es = some (g', s') →
      DegOnly g g' ∧
      (∀ w, g'.indegD w = g.indegD w - ((es.countP (fun e => e.to = w)) : Int)) ∧
      ∃ new : List Nat, s' = new ++ s ∧ new.Nodup ∧
        (∀ w, w ∈ new ↔ (0 < g.indegD w ∧ g'.indegD w ≤ 0)) ∧
        (∀ w ∈ new, ∃ e ∈ es, e.to = w) := by
  intro es
  induction es with
  | nil =>
    intro g s g' s' h
    simp only [decLoop, Option.some.injEq, Prod.mk.injEq] at h
    obtain ⟨rfl, rfl⟩ := h
    refine ⟨degOnly_refl g, by simp, [], by simp, by simp, ?_, by simp⟩
    intro w
    simp only [List.not_mem_nil, false_iff, not_and, not_le]
    omega
  | cons e rest ih =>
    intro g s g' s' h
    simp only [decLoop] at h
    cases hd : decIndegree g e.to with
    | none => rw [hd] at h; exact absurd h (by simp)
    | some r =>
      obtain ⟨g1, nv⟩ := r
      rw [hd] at h
      dsimp only at h
      obtain ⟨hdeg1, hnv, hind1⟩ := decIndegree_some hd
      obtain ⟨hdeg2, hind2, new1, hs', hnd1, hchar1, htgt1⟩ := ih g1 _ g' s' h
      have hcnt : ∀ w, ((e :: rest).countP (fun f => f.to = w) : Int) =
          (rest.countP (fun f => f.to = w) : Int) + (if w = e.to then 1 else 0) := by
        intro w
        rw [List.countP_cons]
        by_cases hw : w = e.to
        · have hde : (decide (e.to = w)) = true := by
            simp only [decide_eq_true_eq]; exact hw.symm
          rw [hde, if_pos hw]
          simp
          try omega
        · have hde : (decide (e.to = w)) = false := by
            simp only [decide_eq_false_iff_not]
            exact fun hh => hw hh.symm
          rw [hde, if_neg hw]
          simp
          try omega
      have hindC : ∀ w, g'.indegD w =
          g.indegD w - (((e :: rest).countP (fun f => f.to = w)) : Int) := by
        intro w
        rw [hind2 w, hind1 w, hcnt w]
        by_cases hw : w = e.to
        · rw [if_pos hw, if_pos hw, hw]
          ring
        · rw [if_neg hw, if_neg hw]
          ring
      refine ⟨degOnly_trans hdeg1 hdeg2, hindC, ?_⟩
      refine ⟨if nv = 0 then new1 ++ [e.to] else new1, ?_, ?_, ?_, ?_⟩
      · by_cases h0 : nv = 0
        · rw [if_pos h0] at hs' ⊢
          rw [hs', List.append_assoc]
          rfl
        · rw [if_neg h0] at hs' ⊢
          exact hs'
      · by_cases h0 : nv = 0
        · rw [if_pos h0]
          rw [List.nodup_append]
          refine ⟨hnd1, by simp, ?_⟩
          intro a ha hae
          have ha' : a = e.to := by simpa using hae
          subst ha'
          have hmem := (hchar1 e.to).mp ha
          rw [hind1 e.to, if_pos rfl, ← hnv, h0] at hmem
          exact absurd hmem.1 (by omega)
        · rw [if_neg h0]
          exact hnd1
      · intro w
        by_cases hw : w = e.to
        · have hie : g.indegD w = g.indegD e.to := by rw [hw]
          have hg1w : g1.indegD w = g.indegD w - 1 := by
            rw [hind1 w, if_pos hw, hie]
          by_cases h0 : nv = 0
          · rw [if_pos h0]
            simp only [List.mem_append, List.mem_singleton]
            have hw1 : g.indegD w = 1 := by
              rw [hie]
              omega
            constructor
            · intro _
              refine ⟨by omega, ?_⟩
              rw [hindC w]
              have hone : (1 : Int) ≤ (((e :: rest).countP (fun f => f.to = w)) : Int) := by
                rw [hcnt w, if_pos hw]
                have hnn : (0 : Int) ≤ ((rest.countP (fun f => f.to = w)) : Int) := by
                  positivity
                omega
              omega
            · intro _
              exact Or.inr hw
          · rw [if_neg h0]
            rw [hchar1 w, hg1w]
            have hne : g.indegD w - 1 ≠ 0 := by
              rw [hie]
              omega
            constructor
            · intro hx
              exact ⟨by omega, hx.2⟩
            · intro hx
              refine ⟨by omega, hx.2⟩
        · have hg1w : g1.indegD w = g.indegD w := by
            rw [hind1 w, if_neg hw]
          have hmem : (w ∈ (if nv = 0 then new1 ++ [e.to] else new1)) ↔ w ∈ new1 := by
            by_cases h0 : nv = 0
            · rw [if_pos h0]
              simp only [List.mem_append, List.mem_singleton, hw, or_false]
            · rw [if_neg h0]
          rw [hmem, hchar1 w, hg1w]
      · intro w hw
        by_cases h0 : nv = 0
        · rw [if_pos h0] at hw
          rcases List.mem_append.mp hw with hw | hw
          · obtain ⟨f, hf, hfw⟩ := htgt1 w hw
            exact ⟨f, List.mem_cons_of_mem e hf, hfw⟩
          · have hwe : w = e.to := by simpa using hw
            exact ⟨e, List.mem_cons_self e rest, hwe.symm⟩
        · rw [if_neg h0] at hw
          obtain ⟨f, hf, hfw⟩ := htgt1 w hw
          exact ⟨f, List.mem_cons_of_mem e hf, hfw⟩

theorem mem_Ico_iff_range1 {v n : Nat} : v ∈ Finset.Ico 1 (n + 1) ↔ v ∈ List.range' 1 n := by
  rw [Finset.mem_Ico, mem_range1]
  omega

theorem cntE_pos_iff {g : Graph} {u v : Nat} :
    0 < cntE g u v ↔ ∃ e ∈ g.nbrsD u, e.to = v := by
  unfold cntE
  rw [List.countP_pos]
  simp

/-- Inside the elimination loop, every in-neighbor of a pushed vertex has
already been popped. -/
theorem kinv_edge_popped {g0 g : Graph} {popped s : List Nat}
    (hAcc : Accurate g0) (inv : KInv g0 g popped s) :
    ∀ u v, edgeRel g0 u v → (v ∈ popped ∨ v ∈ s) → u ∈ popped := by
  intro u v hedge hv
  have hvr : v ∈ List.range' 1 g0.nvertex := by
    rcases hv with hv | hv
    · exact inv.popped_sub v hv
    · exact inv.s_sub v hv
  have hle : g.indegD v ≤ 0 := (inv.pushed_iff v hvr).mp hv
  have hind := inv.indeg v
  have hacc := hAcc v hvr
  have hicnt : inCnt g0 v = Finset.sum (Finset.Ico 1 (g0.nvertex + 1))
      (fun w => cntE g0 w v) := rfl
  have hsub : popped.toFinset ⊆ Finset.Ico 1 (g0.nvertex + 1) := by
    intro x hx
    rw [List.mem_toFinset] at hx
    exact mem_Ico_iff_range1.mpr (inv.popped_sub x hx)
  have hsum2 : Finset.sum popped.toFinset (fun w => cntE g0 w v) ≤
      Finset.sum (Finset.Ico 1 (g0.nvertex + 1)) (fun w => cntE g0 w v) :=
    Finset.sum_le_sum_of_subset hsub
  have hsum1 : Finset.sum (Finset.Ico 1 (g0.nvertex + 1)) (fun w => cntE g0 w v) ≤
      Finset.sum popped.toFinset (fun w => cntE g0 w v) := by
    have h1 : Int.ofNat (Finset.sum (Finset.Ico 1 (g0.nvertex + 1)) (fun w => cntE g0 w v)) ≤
        Int.ofNat (Finset.sum popped.toFinset (fun w => cntE g0 w v)) := by
      have h2 := hind
      rw [hacc] at h2
      have h3 : (inCnt g0 v : Int) = Int.ofNat (Finset.sum (Finset.Ico 1 (g0.nvertex + 1))
          (fun w => cntE g0 w v)) := rfl
      rw [h3] at h2
      omega
    have h5 := Int.ofNat_le.mp h1
    exact h5
  have hsd : Finset.sum (Finset.Ico 1 (g0.nvertex + 1) \ popped.toFinset)
        (fun w => cntE g0 w v) +
      Finset.sum popped.toFinset (fun w => cntE g0 w v) =
      Finset.sum (Finset.Ico 1 (g0.nvertex + 1)) (fun w => cntE g0 w v) :=
    Finset.sum_sdiff hsub
  have hzero : Finset.sum (Finset.Ico 1 (g0.nvertex + 1) \ popped.toFinset)
      (fun w => cntE g0 w v) = 0 := by
    omega
  by_contra hu
  have huIco : u ∈ Finset.Ico 1 (g0.nvertex + 1) := mem_Ico_iff_range1.mpr hedge.1
  have humem : u ∈ Finset.Ico 1 (g0.nvertex + 1) \ popped.toFinset := by
    rw [Finset.mem_sdiff]
    exact ⟨huIco, fun hx => hu (List.mem_toFinset.mp hx)⟩
  have hz := Finset.sum_eq_zero_iff.mp hzero u humem
  have hpos : 0 < cntE g0 u v := cntE_pos_iff.mpr hedge.2
  omega

/-- One iteration of the elimination loop preserves the invariant and
decreases `posCard + stack length` by exactly one. -/
theorem kahn_step {g0 g : Graph} {popped s : List Nat} {v : Nat} {vv : Vertex}
    {g1 : Graph} {s1 : List Nat}
    (hWF : WF g0) (hAcc : Accurate g0)
    (inv : KInv g0 g popped (v :: s))
    (hvv : g.vertex[v]? = some vv)
    (hdec : decLoop g s vv.neighbors = some (g1, s1)) :
    KInv g0 g1 (popped ++ [v]) s1 ∧
      posCard g1 + s1.length + 1 = posCard g + (v :: s).length := by
  have hvr : v ∈ List.range' 1 g0.nvertex := inv.s_sub v (List.mem_cons_self v s)
  have hnbg : g.nbrsD v = vv.neighbors := by simp [Graph.nbrsD, hvv]
  have hnb0 : g0.nbrsD v = vv.neighbors := by
    have hd := inv.deg.2.1
    rw [← hd]
    exact hnbg
  obtain ⟨hdeg, hind, new, hs1, hndnew, hchar, htgt⟩ :=
    decLoop_some vv.neighbors g s g1 s1 hdec
  have hcntE : ∀ w, (vv.neighbors.countP (fun e => e.to = w)) = cntE g0 v w := by
    intro w
    unfold cntE
    rw [hnb0]
  have hind' : ∀ w, g1.indegD w = g.indegD w - Int.ofNat (cntE g0 v w) := by
    intro w
    rw [hind w, hcntE w]
    rfl
  have hnodup0 := inv.nodup
  rw [List.nodup_append] at hnodup0
  obtain ⟨hnp, hnvs, hdisj⟩ := hnodup0
  obtain ⟨hvns, hns⟩ := List.nodup_cons.mp hnvs
  have hvnp : v ∉ popped := fun h => hdisj h (List.mem_cons_self v s)
  have hnvg : g.nvertex = g0.nvertex := inv.deg.2.2.2.2.2.1
  have hnewr : ∀ w ∈ new, w ∈ List.range' 1 g0.nvertex := by
    intro w hw
    obtain ⟨e, he, hfw⟩ := htgt w hw
    have he0 : e ∈ g0.nbrsD v := by rw [hnb0]; exact he
    have hrange := hWF.2.2 v hvr e he0
    rw [mem_range1]
    omega
  have hnew_not : ∀ w ∈ new, w ∉ popped ∧ w ≠ v ∧ w ∉ s := by
    intro w hw
    have hpos := ((hchar w).mp hw).1
    have hiff := inv.pushed_iff w (hnewr w hw)
    have hnot : ¬(w ∈ popped ∨ w ∈ v :: s) := by
      intro hmem
      have := hiff.mp hmem
      omega
    refine ⟨fun h => hnot (Or.inl h), fun h => hnot (Or.inr ?_), fun h =>
      hnot (Or.inr (List.mem_cons_of_mem v h))⟩
    rw [h]
    exact List.mem_cons_self v s
  constructor
  · refine ⟨degOnly_trans inv.deg hdeg, ?_, ?_, ?_, ?_, ?_, ?_⟩
    · intro x hx
      rcases List.mem_append.mp hx with hx | hx
      · exact inv.popped_sub x hx
      · rw [List.mem_singleton.mp hx]
        exact hvr
    · intro x hx
      rw [hs1] at hx
      rcases List.mem_append.mp hx with hx | hx
      · exact hnewr x hx
      · exact inv.s_sub x (List.mem_cons_of_mem v hx)
    · rw [hs1, List.nodup_append]
      refine ⟨?_, ?_, ?_⟩
      · rw [List.nodup_append]
        refine ⟨hnp, by simp, ?_⟩
        intro a ha hav
        rw [List.mem_singleton.mp hav] at ha
        exact hvnp ha
      · rw [List.nodup_append]
        refine ⟨hndnew, hns, ?_⟩
        intro a ha has
        exact (hnew_not a ha).2.2 has
      · intro a ha hb
        rcases List.mem_append.mp ha with ha | ha
        · rcases List.mem_append.mp hb with hb | hb
          · exact (hnew_not a hb).1 ha
          · exact hdisj ha (List.mem_cons_of_mem v hb)
        · have hav : a = v := List.mem_singleton.mp ha
          rcases List.mem_append.mp hb with hb | hb
          · exact (hnew_not a hb).2.1 hav
          · rw [hav] at hb
            exact hvns hb
    · intro w
      have hins : (popped ++ [v]).toFinset = insert v popped.toFinset := by
        simp [List.toFinset_append, Finset.insert_eq, Finset.union_comm]
      have hvnotin : v ∉ popped.toFinset := by
        rw [List.mem_toFinset]
        exact hvnp
      rw [hind' w, inv.indeg w, hins, Finset.sum_insert hvnotin]
      simp only [Int.ofNat_eq_natCast]
      push_cast
      ring
    · intro w hwr
      have hold := inv.pushed_iff w hwr
      have hmemL : (w ∈ popped ++ [v] ∨ w ∈ s1) ↔
          (w ∈ popped ∨ w = v ∨ w ∈ new ∨ w ∈ s) := by
        rw [hs1]
        simp only [List.mem_append, List.mem_singleton]
        tauto
      rw [hmemL]
      by_cases hle : g.indegD w ≤ 0
      · have hl := hold.mpr hle
        have hr : g1.indegD w ≤ 0 := by
          rw [hind' w]
          simp only [Int.ofNat_eq_natCast]
          omega
        refine iff_of_true ?_ hr
        rcases hl with hl | hl
        · exact Or.inl hl
        · rcases List.mem_cons.mp hl with hl | hl
          · exact Or.inr (Or.inl hl)
          · exact Or.inr (Or.inr (Or.inr hl))
      · have hnl : ¬(w ∈ popped ∨ w ∈ v :: s) := fun hmem => hle (hold.mp hmem)
        constructor
        · intro h4
          rcases h4 with h4 | h4 | h4 | h4
          · exact absurd (Or.inl h4) hnl
          · refine absurd (Or.inr ?_) hnl
            rw [h4]
            exact List.mem_cons_self v s
          · exact ((hchar w).mp h4).2
          · exact absurd (Or.inr (List.mem_cons_of_mem v h4)) hnl
        · intro hr
          exact Or.inr (Or.inr (Or.inl ((hchar w).mpr ⟨by omega, hr⟩)))
    · intro u w hedge hw
      rcases List.mem_append.mp hw with hw | hw
      · have hu : u ∈ popped := kinv_edge_popped hAcc inv u w hedge (Or.inl hw)
        rw [List.indexOf_append_of_mem hu, List.indexOf_append_of_mem hw]
        exact inv.order_topo u w hedge hw
      · have hwv : w = v := List.mem_singleton.mp hw
        have hu : u ∈ popped := by
          refine kinv_edge_popped hAcc inv u w hedge (Or.inr ?_)
          rw [hwv]
          exact List.mem_cons_self v s
        rw [List.indexOf_append_of_mem hu, hwv,
          List.indexOf_append_of_not_mem hvnp, List.indexOf_cons_self]
        have h1 : List.indexOf u popped < popped.length :=
          List.indexOf_lt_length.mpr hu
        omega
  · have hnv1 : g1.nvertex = g.nvertex := hdeg.2.2.2.2.2.1
    have hset : (Finset.Ico 1 (g.nvertex + 1)).filter (fun w => 0 < g1.indegD w)
        = ((Finset.Ico 1 (g.nvertex + 1)).filter (fun w => 0 < g.indegD w)) \
          new.toFinset := by
      ext w
      simp only [Finset.mem_filter, Finset.mem_sdiff, List.mem_toFinset]
      constructor
      · intro hw
        obtain ⟨hw1, hw2⟩ := hw
        have hgpos : 0 < g.indegD w := by
          rw [hind' w] at hw2
          simp only [Int.ofNat_eq_natCast] at hw2
          omega
        refine ⟨⟨hw1, hgpos⟩, fun hn => ?_⟩
        have := ((hchar w).mp hn).2
        omega
      · intro hw
        obtain ⟨⟨hw1, hw2⟩, hn⟩ := hw
        refine ⟨hw1, ?_⟩
        by_contra hng
        push_neg at hng
        exact hn ((hchar w).mpr ⟨hw2, hng⟩)
    have hsubnew : new.toFinset ⊆
        (Finset.Ico 1 (g.nvertex + 1)).filter (fun w => 0 < g.indegD w) := by
      intro w hw
      rw [List.mem_toFinset] at hw
      refine Finset.mem_filter.mpr ⟨?_, ((hchar w).mp hw).1⟩
      rw [hnvg]
      exact mem_Ico_iff_range1.mpr (hnewr w hw)
    have hcard : ((Finset.Ico 1 (g.nvertex + 1)).filter (fun w => 0 < g1.indegD w)).card
        = ((Finset.Ico 1 (g.nvertex + 1)).filter (fun w => 0 < g.indegD w)).card
          - new.length := by
      rw [hset, Finset.card_sdiff hsubnew, List.toFinset_card_of_nodup hndnew]
    have hcardle : new.length ≤
        ((Finset.Ico 1 (g.nvertex + 1)).filter (fun w => 0 < g.indegD w)).card := by
      rw [← List.toFinset_card_of_nodup hndnew]
      exact Finset.card_le_card hsubnew
    have hlen : s1.length = new.length + s.length := by
      rw [hs1, List.length_append]
    unfold posCard
    rw [hnv1, hcard, hlen]
    simp only [List.length_cons]
    omega

theorem decLoop_total :
    ∀ (es : List Edge) (g : Graph) (s : List Nat),
      (∀ e ∈ es, e.to < g.vertex.length) → (decLoop g s es).isSome = true := by
  intro es
  induction es with
  | nil => intro g s _; simp [decLoop]
  | cons e rest ih =>
    intro g s hb
    simp only [decLoop]
    have hlt : e.to < g.vertex.length := hb e (List.mem_cons_self e rest)
    have hsome : g.vertex[e.to]? = some (g.vertex.get ⟨e.to, hlt⟩) :=
      List.getElem?_eq_getElem hlt
    cases hd : decIndegree g e.to with
    | none =>
      unfold decIndegree at hd
      rw [hsome] at hd
      exact absurd hd (by simp)
    | some r =>
      obtain ⟨g1, nv⟩ := r
      dsimp only
      have hlen : g1.vertex.length = g.vertex.length := (decIndegree_some hd).1.1
      refine ih g1 _ ?_
      intro f hf
      rw [hlen]
      exact hb f (List.mem_cons_of_mem e hf)

theorem kahnLoop_run {g0 : Graph} (hWF : WF g0) (hAcc : Accurate g0) :
    ∀ fuel g popped s, KInv g0 g popped s →
      posCard g + s.length + 1 ≤ fuel →
      ∃ g' ordF, kahnLoop fuel g s popped.length popped = some (g', ordF.length, ordF) ∧
        KInv g0 g' ordF [] := by
  intro fuel
  induction fuel with
  | zero => intro g popped s _ hb; omega
  | succ fuel ih =>
    intro g popped s inv hb
    match s with
    | [] =>
      exact ⟨g, popped, by simp [kahnLoop], inv⟩
    | v :: s0 =>
      have hvr := inv.s_sub v (List.mem_cons_self v s0)
      have hlen : g.vertex.length = g0.vertex.length := inv.deg.1
      have hvlt : v < g.vertex.length := by
        rw [hlen, hWF.1]
        rw [mem_range1] at hvr
        omega
      have hvv : g.vertex[v]? = some (g.vertex.get ⟨v, hvlt⟩) :=
        List.getElem?_eq_getElem hvlt
      set vv := g.vertex.get ⟨v, hvlt⟩ with hvvdef
      have hnbg : g.nbrsD v = vv.neighbors := by simp [Graph.nbrsD, hvv]
      have hnb0 : g0.nbrsD v = vv.neighbors := by
        have hd := inv.deg.2.1
        rw [← hd]
        exact hnbg
      have htargets : ∀ e ∈ vv.neighbors, e.to < g.vertex.length := by
        intro e he
        have he0 : e ∈ g0.nbrsD v := by rw [hnb0]; exact he
        have hrange := hWF.2.2 v hvr e he0
        rw [hlen, hWF.1]
        omega
      obtain ⟨r, hdec⟩ := Option.isSome_iff_exists.mp (decLoop_total vv.neighbors g s0 htargets)
      obtain ⟨g1, s1⟩ := r
      obtain ⟨inv1, hmeas⟩ := kahn_step hWF hAcc inv hvv hdec
      have hb1 : posCard g1 + s1.length + 1 ≤ fuel := by
        simp only [List.length_cons] at hb hmeas
        omega
      obtain ⟨g', ordF, hrun, hinv'⟩ := ih g1 (popped ++ [v]) s1 inv1 hb1
      refine ⟨g', ordF, ?_, hinv'⟩
      simp only [kahnLoop, hvv]
      rw [hdec]
      dsimp only
      have hlenp : (popped ++ [v]).length = popped.length + 1 := by
        rw [List.length_append, List.length_singleton]
      rw [← hlenp]
      exact hrun

theorem seedLoop_some {g : Graph} :
    ∀ (l acc : List Nat), (∀ i ∈ l, i < g.vertex.length) →
      seedLoop g l acc =
        some ((l.filter (fun i => g.indegD i = 0)).reverse ++ acc) := by
  intro l
  induction l with
  | nil => intro acc _; simp [seedLoop]
  | cons i rest ih =>
    intro acc hb
    have hlt : i < g.vertex.length := hb i (List.mem_cons_self i rest)
    have hvv : g.vertex[i]? = some g.vertex[i] := List.getElem?_eq_getElem hlt
    have hid : g.indegD i = g.vertex[i].indegree := by
      simp [Graph.indegD, hvv]
    simp only [seedLoop, hvv]
    rw [ih _ (fun j hj => hb j (List.mem_cons_of_mem i hj))]
    by_cases h0 : g.vertex[i].indegree = 0
    · rw [if_pos h0]
      have hfc : List.filter (fun j => decide (g.indegD j = 0)) (i :: rest)
          = i :: List.filter (fun j => decide (g.indegD j = 0)) rest := by
        simp [List.filter_cons, hid, h0]
      rw [hfc, List.reverse_cons, List.append_assoc]
      rfl
    · rw [if_neg h0]
      have hfc : List.filter (fun j => decide (g.indegD j = 0)) (i :: rest)
          = List.filter (fun j => decide (g.indegD j = 0)) rest := by
        simp [List.filter_cons, hid, h0]
      rw [hfc]

theorem kinv_init {g0 : Graph} (hAcc : Accurate g0) :
    KInv g0 g0 []
      (((List.range' 1 g0.nvertex).filter (fun i => g0.indegD i = 0)).reverse) := by
  refine ⟨degOnly_refl g0, by simp, ?_, ?_, ?_, ?_, by simp⟩
  · intro v hv
    rw [List.mem_reverse] at hv
    exact List.mem_of_mem_filter hv
  · simp only [List.nil_append]
    rw [List.nodup_reverse]
    exact List.Nodup.filter _ (by simp [List.nodup_range'])
  · intro w
    simp only [List.toFinset_nil, Finset.sum_empty]
    simp only [Int.ofNat_eq_natCast]
    omega
  · intro v hvr
    simp only [List.not_mem_nil, false_or, List.mem_reverse, List.mem_filter]
    have hacc := hAcc v hvr
    constructor
    · intro hv
      have h0 := of_decide_eq_true hv.2
      omega
    · intro hle
      refine ⟨hvr, decide_eq_true ?_⟩
      have hnn : (0 : Int) ≤ (inCnt g0 v : Int) := by positivity
      omega

/-- If the elimination loop ends with fewer than `nvertex` vertices popped,
the graph contains a directed cycle: the unpopped vertices form a nonempty
set in which every vertex has an in-neighbor, and iterating the predecessor
choice must repeat. -/
theorem kahn_incomplete_cycle {g g' : Graph} {ordF : List Nat}
    (hAcc : Accurate g) (inv : KInv g g' ordF [])
    (hne : ordF.length ≠ g.nvertex) : HasDirectedCycle g := by
  classical
  have hnd : ordF.Nodup := by
    have := inv.nodup
    simpa using this
  have hsubF : ordF.toFinset ⊆ Finset.Ico 1 (g.nvertex + 1) := by
    intro x hx
    rw [List.mem_toFinset] at hx
    exact mem_Ico_iff_range1.mpr (inv.popped_sub x hx)
  have hcardT : ordF.toFinset.card = ordF.length := List.toFinset_card_of_nodup hnd
  have hlenle : ordF.length ≤ g.nvertex := by
    have := Finset.card_le_card hsubF
    rw [hcardT, Nat.card_Ico] at this
    omega
  set S := (Finset.Ico 1 (g.nvertex + 1)).filter (fun w => w ∉ ordF) with hS
  have hSne : S.Nonempty := by
    rcases Finset.eq_empty_or_nonempty S with hemp | hne2
    · exfalso
      have hsub2 : Finset.Ico 1 (g.nvertex + 1) ⊆ ordF.toFinset := by
        intro w hw
        rw [List.mem_toFinset]
        by_contra hnw
        have : w ∈ S := Finset.mem_filter.mpr ⟨hw, hnw⟩
        rw [hemp] at this
        exact absurd this (Finset.not_mem_empty w)
      have := Finset.card_le_card hsub2
      rw [hcardT, Nat.card_Ico] at this
      omega
    · exact hne2
  have hpred : ∀ x ∈ S, ∃ u ∈ S, edgeRel g u x := by
    intro x hx
    obtain ⟨hxI, hxno⟩ := Finset.mem_filter.mp hx
    have hxr : x ∈ List.range' 1 g.nvertex := mem_Ico_iff_range1.mp hxI
    have hpos : 0 < g'.indegD x := by
      have hiff := inv.pushed_iff x hxr
      by_contra hng
      push_neg at hng
      have hmem := hiff.mpr hng
      rcases hmem with hmem | hmem
      · exact hxno hmem
      · exact absurd hmem (List.not_mem_nil x)
    have hind := inv.indeg x
    have hacc := hAcc x hxr
    by_contra hno
    push_neg at hno
    have hzero : ∀ u ∈ Finset.Ico 1 (g.nvertex + 1) \ ordF.toFinset,
        cntE g u x = 0 := by
      intro u hu
      obtain ⟨huI, hunot⟩ := Finset.mem_sdiff.mp hu
      have huS : u ∈ S := by
        refine Finset.mem_filter.mpr ⟨huI, ?_⟩
        intro hmem
        exact hunot (List.mem_toFinset.mpr hmem)
      by_contra hcnt
      have hcpos : 0 < cntE g u x := by omega
      obtain ⟨e, he, hex⟩ := cntE_pos_iff.mp hcpos
      exact hno u huS ⟨mem_Ico_iff_range1.mp huI, e, he, hex⟩
    have hsum0 : Finset.sum (Finset.Ico 1 (g.nvertex + 1) \ ordF.toFinset)
        (fun u => cntE g u x) = 0 := Finset.sum_eq_zero hzero
    have hsd : Finset.sum (Finset.Ico 1 (g.nvertex + 1) \ ordF.toFinset)
          (fun u => cntE g u x) +
        Finset.sum ordF.toFinset (fun u => cntE g u x) =
        Finset.sum (Finset.Ico 1 (g.nvertex + 1)) (fun u => cntE g u x) :=
      Finset.sum_sdiff hsubF
    have h3 : (inCnt g x : Int) = Int.ofNat (Finset.sum (Finset.Ico 1 (g.nvertex + 1))
        (fun u => cntE g u x)) := rfl
    rw [hacc, h3] at hind
    have h4 : Int.ofNat (Finset.sum ordF.toFinset (fun u => cntE g u x)) =
        Int.ofNat (Finset.sum (Finset.Ico 1 (g.nvertex + 1)) (fun u => cntE g u x)) := by
      have : Finset.sum ordF.toFinset (fun u => cntE g u x) =
          Finset.sum (Finset.Ico 1 (g.nvertex + 1)) (fun u => cntE g u x) := by
        omega
      rw [this]
    rw [h4] at hind
    omega
  obtain ⟨v0, hv0⟩ := hSne
  have hstep : ∀ x : {w // w ∈ S}, ∃ y : {w // w ∈ S}, edgeRel g y.val x.val := by
    intro x
    obtain ⟨u, hu, he⟩ := hpred x.val x.2
    exact ⟨⟨u, hu⟩, he⟩
  choose f hf using hstep
  have hchain : ∀ (d : Nat) (x : {w // w ∈ S}),
      Relation.TransGen (edgeRel g) (f^[d + 1] x).val x.val := by
    intro d
    induction d with
    | zero =>
      intro x
      rw [Function.iterate_one]
      exact Relation.TransGen.single (hf x)
    | succ d ih =>
      intro x
      rw [Function.iterate_succ_apply']
      exact Relation.TransGen.head (hf (f^[d + 1] x)) (ih x)
  have key : ∀ a b : Fin (S.card + 1), a.val < b.val →
      f^[a.val] ⟨v0, hv0⟩ = f^[b.val] ⟨v0, hv0⟩ → HasDirectedCycle g := by
    intro a b hab hFab
    set y := f^[a.val] (⟨v0, hv0⟩ : {w // w ∈ S}) with hy
    have hd : b.val = (b.val - a.val - 1) + 1 + a.val := by omega
    have hit : f^[b.val] (⟨v0, hv0⟩ : {w // w ∈ S}) = f^[(b.val - a.val - 1) + 1] y := by
      have hadd : f^[(b.val - a.val - 1) + 1 + a.val] (⟨v0, hv0⟩ : {w // w ∈ S})
          = f^[(b.val - a.val - 1) + 1] y := by
        rw [Function.iterate_add_apply]
      rw [← hadd]
      congr 1
    have hT := hchain (b.val - a.val - 1) y
    rw [← hit, ← hFab] at hT
    exact ⟨y.val, hT⟩
  have hcards : Fintype.card {w // w ∈ S} < Fintype.card (Fin (S.card + 1)) := by
    rw [Fintype.card_coe, Fintype.card_fin]
    omega
  obtain ⟨i, j, hij, hFij⟩ := Fintype.exists_ne_map_eq_of_card_lt
    (fun i : Fin (S.card + 1) => f^[i.val] ⟨v0, hv0⟩) hcards
  rcases Nat.lt_or_ge i.val j.val with h | h
  · exact key i j h hFij
  · have hji : j.val < i.val := by
      rcases Nat.lt_or_ge j.val i.val with h2 | h2
      · exact h2
      · exact absurd (Fin.ext (by omega)) hij
    exact key j i hji hFij.symm

/-- The pop order is topologically sorted: along every stored edge, the
source is popped strictly before the target. -/
theorem kahn_topo {g g' : Graph} {ordF : List Nat}
    (hAcc : Accurate g) (inv : KInv g g' ordF []) :
    ∀ u v, edgeRel g u v → v ∈ ordF →
      u ∈ ordF ∧ ordF.indexOf u < ordF.indexOf v := by
  intro u v he hv
  exact ⟨kinv_edge_popped hAcc inv u v he (Or.inl hv), inv.order_topo u v he hv⟩

/-- If the elimination loop pops all `nvertex` vertices, the graph has no
directed cycle: the pop order linearizes every edge. -/
theorem kahn_complete_acyclic {g g' : Graph} {ordF : List Nat}
    (hAcc : Accurate g) (inv : KInv g g' ordF [])
    (hfull : ordF.length = g.nvertex) : ¬ HasDirectedCycle g := by
  have hnd : ordF.Nodup := by
    have := inv.nodup
    simpa using this
  have hsubF : ordF.toFinset ⊆ Finset.Ico 1 (g.nvertex + 1) := by
    intro x hx
    rw [List.mem_toFinset] at hx
    exact mem_Ico_iff_range1.mpr (inv.popped_sub x hx)
  have hcardT : ordF.toFinset.card = ordF.length := List.toFinset_card_of_nodup hnd
  have hmem : ∀ w ∈ List.range' 1 g.nvertex, w ∈ ordF := by
    intro w hw
    have hcard2 : (Finset.Ico 1 (g.nvertex + 1)).card ≤ ordF.toFinset.card := by
      rw [hcardT, Nat.card_Ico, hfull]
      omega
    have heqF : ordF.toFinset = Finset.Ico 1 (g.nvertex + 1) :=
      Finset.eq_of_subset_of_card_le hsubF hcard2
    have : w ∈ ordF.toFinset := by
      rw [heqF]
      exact mem_Ico_iff_range1.mpr hw
    exact List.mem_toFinset.mp this
  rintro ⟨v, hT⟩
  have key : ∀ a b, Relation.TransGen (edgeRel g) a b → b ∈ ordF →
      a ∈ ordF ∧ ordF.indexOf a < ordF.indexOf b := by
    intro a b hT2
    induction hT2 with
    | single h =>
      intro hb
      exact kahn_topo hAcc inv _ _ h hb
    | tail hT2 h ih =>
      intro hc
      obtain ⟨hb, hbc⟩ := kahn_topo hAcc inv _ _ h hc
      obtain ⟨ha, hab⟩ := ih hb
      exact ⟨ha, hab.trans hbc⟩
  have hsrc : ∀ a b, Relation.TransGen (edgeRel g) a b → a ∈ List.range' 1 g.nvertex := by
    intro a b hT2
    induction hT2 with
    | single h => exact h.1
    | tail _ _ ih => exact ih
  have hvord : v ∈ ordF := hmem v (hsrc v v hT)
  have := (key v v hT hvord).2
  omega

/-- Complete characterization of one `detect_directed_cycle` run. -/
theorem detect_directed_cycle_run {g : Graph} (hWF : WF g) (hAcc : Accurate g)
    {fuel : Nat} (hfuel : 2 * g.nvertex + 1 ≤ fuel) :
    ∃ g' ordF, detect_directed_cycle fuel g =
        some (g', (if ordF.length = g.nvertex then false else true), ordF) ∧
      KInv g g' ordF [] := by
  have hseedb : ∀ i ∈ List.range' 1 g.nvertex, i < g.vertex.length := by
    intro i hi
    rw [hWF.1]
    rw [mem_range1] at hi
    omega
  have hseed := seedLoop_some (List.range' 1 g.nvertex) [] hseedb
  rw [List.append_nil] at hseed
  have inv0 := kinv_init hAcc
  have hposle : posCard g ≤ g.nvertex := by
    unfold posCard
    have h1 := Finset.card_filter_le (Finset.Ico 1 (g.nvertex + 1))
      (fun v => 0 < g.indegD v)
    rw [Nat.card_Ico] at h1
    omega
  have hseedlen :
      ((List.range' 1 g.nvertex).filter (fun i => g.indegD i = 0)).reverse.length ≤
        g.nvertex := by
    rw [List.length_reverse]
    have h2 := List.length_filter_le (fun i => decide (g.indegD i = 0))
      (List.range' 1 g.nvertex)
    rw [List.length_range'] at h2
    exact h2
  obtain ⟨g', ordF, hrun, hinv⟩ := kahnLoop_run hWF hAcc fuel g []
    (((List.range' 1 g.nvertex).filter (fun i => g.indegD i = 0)).reverse) inv0
    (by omega)
  simp only [List.length_nil] at hrun
  refine ⟨g', ordF, ?_, hinv⟩
  unfold detect_directed_cycle
  rw [hseed]
  dsimp only
  rw [hrun]

/-- The graphs of a zero-vertex range have no cycles. -/
theorem no_cycle_of_nvertex_zero {g : Graph} (hn : ¬0 < g.nvertex) :
    ¬ HasDirectedCycle g := by
  rintro ⟨v, hT⟩
  have hsrc : ∀ a b, Relation.TransGen (edgeRel g) a b →
      a ∈ List.range' 1 g.nvertex := by
    intro a b hT2
    induction hT2 with
    | single h => exact h.1
    | tail _ _ ih => exact ih
  have hv := hsrc v v hT
  have hn0 : g.nvertex = 0 := by omega
  rw [hn0] at hv
  exact absurd hv (by simp)

/-- The `has_cycle` on a directed graph with accurate indegree counters returns
exactly the existence of a directed cycle. -/
theorem has_cycle_directed_run {g : Graph} (hWF : WF g) (hAcc : Accurate g)
    (hdir : g.directed = true) {fuel : Nat} (hfuel : 2 * g.nvertex + 1 ≤ fuel) :
    ∃ g' b, g.has_cycle fuel = some (g', b) ∧ (b = true ↔ HasDirectedCycle g) := by
  by_cases hn : 0 < g.nvertex
  · have hWFu : WF g.unvisit := hWF
    have hAccu : Accurate g.unvisit := hAcc
    have hfuelu : 2 * g.unvisit.nvertex + 1 ≤ fuel := hfuel
    obtain ⟨g', ordF, hdet, hinv⟩ := detect_directed_cycle_run hWFu hAccu hfuelu
    unfold Graph.has_cycle
    rw [if_pos hn, hdir]
    simp only [if_true]
    rw [hdet]
    dsimp only
    refine ⟨g', _, rfl, ?_⟩
    by_cases hfull : ordF.length = g.unvisit.nvertex
    · rw [if_pos hfull]
      have hnc : ¬ HasDirectedCycle g.unvisit :=
        kahn_complete_acyclic hAccu hinv hfull
      have hnc2 : ¬ HasDirectedCycle g := hnc
      simp [hnc2]
    · rw [if_neg hfull]
      have hc : HasDirectedCycle g.unvisit :=
        kahn_incomplete_cycle hAccu hinv hfull
      have hc2 : HasDirectedCycle g := hc
      simp [hc2]
  · unfold Graph.has_cycle
    rw [if_neg hn]
    refine ⟨g, false, rfl, ?_⟩
    have := no_cycle_of_nvertex_zero hn
    simp [this]

theorem kahnLoop_degonly :
    ∀ fuel g s nproc order g' r, kahnLoop fuel g s nproc order = some (g', r) →
      DegOnly g g' := by
  intro fuel
  induction fuel with
  | zero => intro g s nproc order g' r h; simp [kahnLoop] at h
  | succ fuel ih =>
    intro g s nproc order g' r h
    match s with
    | [] =>
      simp only [kahnLoop, Option.some.injEq, Prod.mk.injEq] at h
      obtain ⟨rfl, -⟩ := h
      exact degOnly_refl g
    | v :: s0 =>
      simp only [kahnLoop] at h
      cases hvv : g.vertex[v]? with
      | none => rw [hvv] at h; exact absurd h (by simp)
      | some vv =>
        rw [hvv] at h
        dsimp only at h
        cases hdec : decLoop g s0 vv.neighbors with
        | none => rw [hdec] at h; exact absurd h (by simp)
        | some r2 =>
          obtain ⟨g1, s1⟩ := r2
          rw [hdec] at h
          dsimp only at h
          exact degOnly_trans ((decLoop_some vv.neighbors g s0 g1 s1 hdec).1)
            (ih g1 s1 _ _ g' r h)

theorem detect_directed_cycle_degonly {fuel : Nat} {g g' : Graph} {b : Bool}
    {ordF : List Nat} (h : detect_directed_cycle fuel g = some (g', b, ordF)) :
    DegOnly g g' := by
  unfold detect_directed_cycle at h
  cases hs : seedLoop g (List.range' 1 g.nvertex) [] with
  | none => rw [hs] at h; exact absurd h (by simp)
  | some s =>
    rw [hs] at h
    dsimp only at h
    cases hk : kahnLoop fuel g s 0 [] with
    | none => rw [hk] at h; exact absurd h (by simp)
    | some r =>
      obtain ⟨g1, nproc, order⟩ := r
      rw [hk] at h
      dsimp only at h
      simp only [Option.some.injEq, Prod.mk.injEq] at h
      obtain ⟨rfl, -, -⟩ := h
      exact kahnLoop_degonly fuel g s 0 [] g1 (nproc, order) hk

/-! ### `processed` is untouched by undirected cycle detection -/

theorem ducList_aux {fuel : Nat}
    (IH : ∀ g v g' b, detect_undirected_cycle fuel g v = some (g', b) →
      g'.processed = g.processed ∧ g'.vertex = g.vertex ∧ g'.nvertex = g.nvertex ∧
        (∀ w, g.discovered w = true → g'.discovered w = true)) :
    ∀ es g v g' b, ducList (fun g2 w => detect_undirected_cycle fuel g2 w) g v es = some (g', b) →
      g'.processed = g.processed ∧ g'.vertex = g.vertex ∧ g'.nvertex = g.nvertex ∧
        (∀ w, g.discovered w = true → g'.discovered w = true) := by
  intro es
  induction es with
  | nil =>
    intro g v g' b h
    simp only [ducList, Option.some.injEq, Prod.mk.injEq] at h
    obtain ⟨rfl, rfl⟩ := h
    exact ⟨rfl, rfl, rfl, fun _ hw => hw⟩
  | cons e rest ih =>
    intro g v g' b h
    simp only [ducList] at h
    by_cases hde : g.discovered e.to = true
    · rw [if_pos hde] at h
      by_cases hpar : g.parent v = (e.to : Int)
      · rw [if_pos hpar] at h
        exact ih g v g' b h
      · rw [if_neg hpar] at h
        simp only [Option.some.injEq, Prod.mk.injEq] at h
        obtain ⟨rfl, rfl⟩ := h
        exact ⟨rfl, rfl, rfl, fun _ hw => hw⟩
    · rw [if_neg hde] at h
      cases hdet : detect_undirected_cycle fuel
          { g with parent := fun i => if i = e.to then (v : Int) else g.parent i } e.to with
      | none => rw [hdet] at h; exact absurd h (by simp)
      | some r =>
        obtain ⟨g2, b2⟩ := r
        rw [hdet] at h
        obtain ⟨hp2, hv2, hn2, hd2⟩ := IH _ _ _ _ hdet
        cases b2 with
        | true =>
          dsimp only at h
          simp only [Option.some.injEq, Prod.mk.injEq] at h
          obtain ⟨rfl, rfl⟩ := h
          exact ⟨hp2, hv2, hn2, hd2⟩
        | false =>
          dsimp only at h
          obtain ⟨hp3, hv3, hn3, hd3⟩ := ih g2 v g' b h
          exact ⟨hp3.trans hp2, hv3.trans hv2, hn3.trans hn2,
            fun w hw => hd3 w (hd2 w hw)⟩

theorem detect_undirected_cycle_state :
    ∀ fuel g v g' b, detect_undirected_cycle fuel g v = some (g', b) →
      g'.processed = g.processed ∧ g'.vertex = g.vertex ∧ g'.nvertex = g.nvertex ∧
        (∀ w, g.discovered w = true → g'.discovered w = true) := by
  intro fuel
  induction fuel with
  | zero => intro g v g' b h; simp [detect_undirected_cycle] at h
  | succ fuel ih =>
    intro g v g' b h
    simp only [detect_undirected_cycle] at h
    by_cases hd : g.discovered v = true
    · rw [if_pos hd] at h
      simp only [Option.some.injEq, Prod.mk.injEq] at h
      obtain ⟨rfl, rfl⟩ := h
      exact ⟨rfl, rfl, rfl, fun _ hw => hw⟩
    · rw [if_neg hd] at h
      cases hvv : (markDiscovered g v).vertex[v]? with
      | none => rw [hvv] at h; exact absurd h (by simp)
      | some vv =>
        rw [hvv] at h
        dsimp only at h
        obtain ⟨hp2, hv2, hn2, hd2⟩ := ducList_aux ih vv.neighbors _ v g' b h
        refine ⟨hp2, hv2, hn2, ?_⟩
        intro w hw
        exact hd2 w (markDiscovered_discovered_mono g v w hw)

theorem undirectedScan_state {fuel : Nat} :
    ∀ l g acc g' b, undirectedScan fuel g l acc = some (g', b) →
      g'.processed = g.processed := by
  intro l
  induction l with
  | nil =>
    intro g acc g' b h
    simp only [undirectedScan, Option.some.injEq, Prod.mk.injEq] at h
    obtain ⟨rfl, rfl⟩ := h
    rfl
  | cons i rest ih =>
    intro g acc g' b h
    simp only [undirectedScan] at h
    by_cases hd : g.discovered i = true
    · rw [if_pos hd] at h
      exact ih g acc g' b h
    · rw [if_neg hd] at h
      cases hdet : detect_undirected_cycle fuel g i with
      | none => rw [hdet] at h; exact absurd h (by simp)
      | some r =>
        obtain ⟨g1, b1⟩ := r
        rw [hdet] at h
        dsimp only at h
        have hp1 := (detect_undirected_cycle_state fuel g i g1 b1 hdet).1
        exact (ih g1 _ g' b h).trans hp1

/-- The invariant `processed ⊆ discovered` after any completed `has_cycle`. -/
theorem has_cycle_psd {fuel : Nat} {g g' : Graph} {b : Bool}
    (h : g.has_cycle fuel = some (g', b)) (hpsd : ProcSubDisc g) : ProcSubDisc g' := by
  unfold Graph.has_cycle at h
  by_cases hn : 0 < g.nvertex
  · rw [if_pos hn] at h
    by_cases hdir : g.directed = true
    · rw [hdir] at h
      simp only [if_true] at h
      cases hdet : detect_directed_cycle fuel g.unvisit with
      | none => rw [hdet] at h; exact absurd h (by simp)
      | some r =>
        obtain ⟨g1, b1, ord1⟩ := r
        rw [hdet] at h
        dsimp only at h
        simp only [Option.some.injEq, Prod.mk.injEq] at h
        obtain ⟨rfl, rfl⟩ := h
        have hdeg := detect_directed_cycle_degonly hdet
        intro w hw
        rw [hdeg.2.2.2.2.1] at hw
        exact absurd hw (by simp [Graph.unvisit])
    · simp only [Bool.not_eq_true] at hdir
      rw [hdir] at h
      simp only [Bool.false_eq_true, if_false] at h
      intro w hw
      rw [undirectedScan_state (List.range' 1 g.nvertex) g.unvisit false g' b h] at hw
      exact absurd hw (by simp [Graph.unvisit])
  · rw [if_neg hn] at h
    simp only [Option.some.injEq, Prod.mk.injEq] at h
    obtain ⟨rfl, rfl⟩ := h
    exact hpsd

theorem fcLoop_psd {fuel : Nat} :
    ∀ l g k g' comps, fcLoop fuel g l k = some (g', comps) →
      ProcSubDisc g → ProcSubDisc g' := by
  intro l
  induction l with
  | nil =>
    intro g k g' comps h
    simp only [fcLoop, Option.some.injEq, Prod.mk.injEq] at h
    obtain ⟨rfl, rfl⟩ := h
    exact id
  | cons i rest ih =>
    intro g k g' comps h hpsd
    simp only [fcLoop] at h
    by_cases hd : g.discovered i = true
    · rw [if_pos hd] at h
      exact ih g k g' comps h hpsd
    · rw [if_neg hd] at h
      cases hdfs : g.dfs fuel i with
      | none => rw [hdfs] at h; exact absurd h (by simp)
      | some r =>
        obtain ⟨g1, o1⟩ := r
        rw [hdfs] at h
        dsimp only at h
        cases hrest : fcLoop fuel g1 rest (k + 1) with
        | none => rw [hrest] at h; exact absurd h (by simp)
        | some r2 =>
          obtain ⟨g2, comps2⟩ := r2
          rw [hrest] at h
          dsimp only at h
          simp only [Option.some.injEq, Prod.mk.injEq] at h
          obtain ⟨rfl, rfl⟩ := h
          exact ih g1 (k + 1) g2 comps2 hrest ((dfs_some hdfs).2.1 hpsd)

theorem find_components_psd {fuel : Nat} {g g' : Graph} {comps : List (Nat × List Nat)}
    (h : g.find_components fuel = some (g', comps)) (hpsd : ProcSubDisc g) :
    ProcSubDisc g' :=
  fcLoop_psd (List.range' 1 g.nvertex) g 1 g' comps h hpsd

/-- Successful `add_edge` appends exactly one edge to `from`'s list. -/
theorem add_edge_appends {g : Graph} {x y : Nat} {w : Int}
    (hx : x < g.vertex.length) (hy : g.directed = true → y < g.vertex.length) :
    ∃ g', g.add_edge x y w = some g' ∧
      g'.nbrsD x = g.nbrsD x ++ [⟨w, y⟩] ∧
      (∀ u, u ≠ x → g'.nbrsD u = g.nbrsD u) ∧
      g'.vertex.length = g.vertex.length ∧
      g'.nvertex = g.nvertex ∧ g'.directed = g.directed := by
  have hxs : g.vertex[x]? = some (g.vertex.get ⟨x, hx⟩) := List.getElem?_eq_getElem hx
  unfold Graph.add_edge
  rw [hxs]
  dsimp only
  by_cases hdir : g.directed = true
  · rw [hdir]
    simp only [if_true]
    have hy' : y < g.vertex.length := hy hdir
    have hylen : y < (updNth g.vertex x
        (fun vv => { vv with neighbors := vv.neighbors ++ [⟨w, y⟩] })).length := by
      rw [length_updNth]
      exact hy'
    have hys : (updNth g.vertex x
        (fun vv => { vv with neighbors := vv.neighbors ++ [⟨w, y⟩] }))[y]? ≠ none := by
      rw [getElem?_updNth]
      by_cases hyx : y = x
      · rw [if_pos hyx, hyx, hxs]
        simp
      · rw [if_neg hyx]
        rw [List.getElem?_eq_getElem hy']
        simp
    cases hys2 : (updNth g.vertex x
        (fun vv => { vv with neighbors := vv.neighbors ++ [⟨w, y⟩] }))[y]? with
    | none => exact absurd hys2 hys
    | some vy =>
      dsimp only
      refine ⟨_, rfl, ?_, ?_, ?_, rfl, rfl⟩
      · show ((((updNth (updNth (updNth g.vertex x _) x _) y _)[x]?).map
          Vertex.neighbors).getD []) = _
        rw [getElem?_updNth]
        by_cases hxy : x = y
        · rw [if_pos hxy]
          rw [← hxy]
          rw [getElem?_updNth, if_pos rfl, getElem?_updNth, if_pos rfl, hxs]
          simp [Graph.nbrsD, hxs]
        · rw [if_neg hxy]
          rw [getElem?_updNth, if_pos rfl, getElem?_updNth, if_pos rfl, hxs]
          simp [Graph.nbrsD, hxs]
      · intro u hu
        show ((((updNth (updNth (updNth g.vertex x _) x _) y _)[u]?).map
          Vertex.neighbors).getD []) = _
        rw [getElem?_updNth]
        by_cases huy : u = y
        · rw [if_pos huy]
          rw [getElem?_updNth, if_neg (huy ▸ hu), getElem?_updNth, if_neg (huy ▸ hu)]
          rw [huy]
          unfold Graph.nbrsD
          cases hgy : g.vertex[y]? with
          | none => simp
          | some vv => simp
        · rw [if_neg huy]
          rw [getElem?_updNth, if_neg hu, getElem?_updNth, if_neg hu]
          rfl
      · rw [length_updNth, length_updNth, length_updNth]
  · simp only [Bool.not_eq_true] at hdir
    rw [hdir]
    simp only [Bool.false_eq_true, if_false]
    refine ⟨_, rfl, ?_, ?_, ?_, rfl, rfl⟩
    · show ((((updNth g.vertex x _)[x]?).map Vertex.neighbors).getD []) = _
      rw [getElem?_updNth, if_pos rfl, hxs]
      simp [Graph.nbrsD, hxs]
    · intro u hu
      show ((((updNth g.vertex x _)[u]?).map Vertex.neighbors).getD []) = _
      rw [getElem?_updNth, if_neg hu]
      rfl
    · rw [length_updNth]

theorem kahn_len_le {g g' : Graph} {ordF : List Nat} (inv : KInv g g' ordF []) :
    ordF.length ≤ g.nvertex := by
  have hnd : ordF.Nodup := by
    have := inv.nodup
    simpa using this
  have hsubF : ordF.toFinset ⊆ Finset.Ico 1 (g.nvertex + 1) := by
    intro x hx
    rw [List.mem_toFinset] at hx
    exact mem_Ico_iff_range1.mpr (inv.popped_sub x hx)
  have hcardT : ordF.toFinset.card = ordF.length := List.toFinset_card_of_nodup hnd
  have := Finset.card_le_card hsubF
  rw [hcardT, Nat.card_Ico] at this
  omega

theorem kahn_full_mem {g g' : Graph} {ordF : List Nat} (inv : KInv g g' ordF [])
    (hfull : ordF.length = g.nvertex) :
    ∀ w ∈ List.range' 1 g.nvertex, w ∈ ordF := by
  have hnd : ordF.Nodup := by
    have := inv.nodup
    simpa using this
  have hsubF : ordF.toFinset ⊆ Finset.Ico 1 (g.nvertex + 1) := by
    intro x hx
    rw [List.mem_toFinset] at hx
    exact mem_Ico_iff_range1.mpr (inv.popped_sub x hx)
  have hcardT : ordF.toFinset.card = ordF.length := List.toFinset_card_of_nodup hnd
  intro w hw
  have hcard2 : (Finset.Ico 1 (g.nvertex + 1)).card ≤ ordF.toFinset.card := by
    rw [hcardT, Nat.card_Ico, hfull]
    omega
  have heqF : ordF.toFinset = Finset.Ico 1 (g.nvertex + 1) :=
    Finset.eq_of_subset_of_card_le hsubF hcard2
  have hmemF : w ∈ ordF.toFinset := by
    rw [heqF]
    exact mem_Ico_iff_range1.mpr hw
  exact List.mem_toFinset.mp hmemF

/-! ### Claim theorems -/

/-- C1: the claim asserts that `new(vertexCount, directed)` leaves vertex
storage initialized for ids `0..vertexCount` with zero degree counters, so
that `add_edge` with endpoints in `[1, vertexCount]` stays in bounds.  The
source constructor only calls `reserve`, which does not change the vector's
size, so the storage has *no* entries at all and every such `add_edge`
indexes `_vertex` out of bounds (modelled as `none`). -/
theorem c1_new_storage_uninitialized (n : Nat) (directed : Bool)
    (x y : Nat) (w : Int) (hn1 : 1 ≤ n) (hn2 : n ≤ 10000)
    (hx1 : 1 ≤ x) (hx2 : x ≤ n) :
    (Graph.new n directed).vertex.length = 0 ∧
      (Graph.new n directed).add_edge x y w = none := by
  refine ⟨rfl, ?_⟩
  unfold Graph.add_edge
  rfl

/-- Witness for C1 at `vertexCount = 1`, `add_edge(1, 1, 0)`. -/
theorem c1_witness :
    (Graph.new 1 true).vertex.length = 0 ∧
      (Graph.new 1 true).add_edge 1 1 0 = none :=
  ⟨(c1_new_storage_uninitialized 1 true 1 1 0 (by decide) (by decide) (by decide)
      (by decide)).1,
    (c1_new_storage_uninitialized 1 true 1 1 0 (by decide) (by decide) (by decide)
      (by decide)).2⟩

/-- C2: evaluating the source's `find_components` on Scenario C (undirected,
vertices `{1,2,3,4}`, symmetric edges `1–2`, `2–3`): because the loop calls
the *public* `dfs`, whose trailing sweep runs `do_dfs` on every unprocessed
vertex, the first traversal covers the whole graph and the run reports one
single component `[1, 2, 3, 4]` — not the two components `{1,2,3}`, `{4}`
the claim asserts. -/
theorem c2_find_components_single_component :
    (gC.find_components 10).map (fun r => r.2) = some [(1, [1, 2, 3, 4])] := rfl

/-- C3 counterexample: on the directed graph `gE` (vertices `{1,2,3}`, edges
`1→2, 2→3, 3→2`) the first `has_cycle` returns true but a second call on the
resulting state returns false — repeated calls are not idempotent. -/
theorem c3_counterexample_not_idempotent :
    (gE.has_cycle 10).map (fun r => r.2) = some true ∧
      ((gE.has_cycle 10).bind (fun r => r.1.has_cycle 10)).map (fun r => r.2) =
        some false :=
  ⟨rfl, rfl⟩

/-- C3 (amended): `detect_directed_cycle` decrements the graph's persistent
indegree counters in place — there is no working copy — so repeated
`has_cycle` calls need not agree: on `gE`, vertex 2's counter drops from 2
to 1 during the first call (which returns true) and the second call returns
false. -/
theorem c3_amended_mutates_indegrees :
    gE.indegD 2 = 2 ∧
      (gE.has_cycle 10).map (fun r => r.1.indegD 2) = some 1 ∧
      (gE.has_cycle 10).map (fun r => r.2) = some true ∧
      ((gE.has_cycle 10).bind (fun r => r.1.has_cycle 10)).map (fun r => r.2) =
        some false :=
  ⟨rfl, rfl, rfl, rfl⟩

/-- C4 counterexample: on the one-vertex directed graph, a second
`bfs(1)` run without a reset emits `[1]` again — not nothing, as the claim
asserts — because `do_bfs` enqueues and prints the seed without checking
the visitation state. -/
theorem c4_counterexample_second_bfs_emits :
    ((Graph.bfs 5 (Graph.init 1 true) 1).bind
        (fun r => Graph.bfs 5 r.1 1)).map (fun r => r.2) = some [1] ∧
      ([1] : List Nat) ≠ [] :=
  ⟨rfl, by decide⟩

/-- C4 (amended): after a completed `bfs(start)`, a second `bfs(start)`
without a reset marks no new vertex discovered or processed but re-emits
exactly `[start]`; after a completed `dfs(start)`, a second `dfs(start)` is
a complete no-op (same state, empty output). -/
theorem c4_second_traversal (g : Graph) (fuel start : Nat)
    (hv : 0 < start ∧ start ≤ g.nvertex) (hf : 2 ≤ fuel)
    (hb : (g.bfs fuel start).isSome = true) (hd : (g.dfs fuel start).isSome = true) :
    ((g.bfs fuel start).bind (fun r => r.1.bfs fuel start)).map (fun r => r.2) =
      some [start] ∧
    (∀ v, ((g.bfs fuel start).bind (fun r => r.1.bfs fuel start)).map
        (fun r => r.1.discovered v) =
      (g.bfs fuel start).map (fun r => r.1.discovered v)) ∧
    (∀ v, ((g.bfs fuel start).bind (fun r => r.1.bfs fuel start)).map
        (fun r => r.1.processed v) =
      (g.bfs fuel start).map (fun r => r.1.processed v)) ∧
    ((g.dfs fuel start).bind (fun r => r.1.dfs fuel start)) =
      (g.dfs fuel start).map (fun r => (r.1, ([] : List Nat))) := by
  obtain ⟨rb, hbfs⟩ := Option.isSome_iff_exists.mp hb
  obtain ⟨gb, ob⟩ := rb
  obtain ⟨rd, hdfs⟩ := Option.isSome_iff_exists.mp hd
  obtain ⟨gd, od⟩ := rd
  obtain ⟨h1, h2, h3, h4⟩ := second_run_behavior g fuel start gb gd ob od hv hf hbfs hdfs
  rw [hbfs, hdfs]
  simp only [Option.some_bind]
  refine ⟨?_, ?_, ?_, ?_⟩
  · show (Graph.bfs fuel gb start).map (fun r => r.2) = some [start]
    rw [h1]
    rfl
  · intro v
    show (Graph.bfs fuel gb start).map (fun r => r.1.discovered v) =
      (some (gb, ob)).map (fun r => r.1.discovered v)
    rw [h1]
    simp only [Option.map_some']
    rw [h2 v]
  · intro v
    show (Graph.bfs fuel gb start).map (fun r => r.1.processed v) =
      (some (gb, ob)).map (fun r => r.1.processed v)
    rw [h1]
    simp only [Option.map_some']
    rw [h3 v]
  · show Graph.dfs fuel gd start = (some (gd, od)).map (fun r => (r.1, ([] : List Nat)))
    rw [h4]
    rfl

/-- Witness for C4 on the one-vertex directed graph. -/
theorem c4_witness :
    ((Graph.bfs 5 (Graph.init 1 true) 1).bind
        (fun r => r.1.bfs 5 1)).map (fun r => r.2) = some [1] :=
  (c4_second_traversal (Graph.init 1 true) 5 1 ⟨by decide, by decide⟩ (by decide)
    (by rfl) (by rfl)).1

/-- C5: on a directed graph with accurate indegree counters (the state of a
first call), `has_cycle` returns true exactly when the graph contains a
directed cycle, which is exactly when the Kahn-style elimination inside
`detect_directed_cycle` pops fewer than `nvertex` vertices. -/
theorem c5_has_cycle_iff_directed_cycle (g : Graph) (fuel : Nat)
    (hWF : WF g) (hAcc : Accurate g) (hdir : g.directed = true)
    (hfuel : 2 * g.nvertex + 1 ≤ fuel) :
    ∃ g' b, g.has_cycle fuel = some (g', b) ∧ (b = true ↔ HasDirectedCycle g) ∧
      (0 < g.nvertex →
        ∃ ord, detect_directed_cycle fuel g.unvisit = some (g', b, ord) ∧
          (b = true ↔ ord.length < g.nvertex)) := by
  by_cases hn : 0 < g.nvertex
  · have hWFu : WF g.unvisit := hWF
    have hAccu : Accurate g.unvisit := hAcc
    have hfuelu : 2 * g.unvisit.nvertex + 1 ≤ fuel := hfuel
    obtain ⟨g', ordF, hdet, hinv⟩ := detect_directed_cycle_run hWFu hAccu hfuelu
    have hlenle0 := kahn_len_le hinv
    have hlenle : ordF.length ≤ g.nvertex := hlenle0
    refine ⟨g', (if ordF.length = g.nvertex then false else true), ?_, ?_, ?_⟩
    · unfold Graph.has_cycle
      rw [if_pos hn, hdir]
      simp only [if_true]
      rw [hdet]
      rfl
    · by_cases hfull : ordF.length = g.nvertex
      · rw [if_pos hfull]
        have hnc : ¬ HasDirectedCycle g.unvisit := kahn_complete_acyclic hAccu hinv hfull
        have hnc2 : ¬ HasDirectedCycle g := hnc
        simp [hnc2]
      · rw [if_neg hfull]
        have hc : HasDirectedCycle g.unvisit := kahn_incomplete_cycle hAccu hinv hfull
        have hc2 : HasDirectedCycle g := hc
        simp [hc2]
    · intro _
      refine ⟨ordF, hdet, ?_⟩
      by_cases hfull : ordF.length = g.nvertex
      · rw [if_pos hfull]
        simp
        omega
      · rw [if_neg hfull]
        simp
        omega
  · refine ⟨g, false, ?_, ?_, fun h => absurd h hn⟩
    · unfold Graph.has_cycle
      rw [if_neg hn]
    · have := no_cycle_of_nvertex_zero hn
      simp [this]

/-- Witness for C5 at Scenario B (directed triangle `1→2, 2→3, 3→1`). -/
theorem c5_witness :
    ∃ g' b, gB.has_cycle 10 = some (g', b) ∧ (b = true ↔ HasDirectedCycle gB) ∧
      (0 < gB.nvertex →
        ∃ ord, detect_directed_cycle 10 gB.unvisit = some (g', b, ord) ∧
          (b = true ↔ ord.length < gB.nvertex)) :=
  c5_has_cycle_iff_directed_cycle gB 10 (by decide) (by decide) (by decide) (by decide)

/-- C6: on the undirected triangle (Scenario D, symmetric edges `1–2, 2–3,
3–1`) the parent-tracking DFS of `has_cycle` reports a cycle: the scan from
vertex 1 reaches a discovered neighbor that is not the visiting vertex's own
recorded parent. -/
theorem c6_undirected_triangle_cycle :
    (gD.has_cycle 10).map (fun r => r.2) = some true := rfl

/-- C7: whenever `detect_directed_cycle` reports no cycle, the pop order of
the elimination loop is a valid topological order — for every stored edge
`(u, v)`, `u` appears in the order strictly before `v`. -/
theorem c7_topological_order (g : Graph) (fuel : Nat) (gfin : Graph) (ord : List Nat)
    (hWF : WF g) (hAcc : Accurate g) (hfuel : 2 * g.nvertex + 1 ≤ fuel)
    (hdet : detect_directed_cycle fuel g = some (gfin, false, ord)) :
    ∀ u v, edgeRel g u v →
      u ∈ ord ∧ v ∈ ord ∧ ord.indexOf u < ord.indexOf v := by
  obtain ⟨g', ordF, hdet2, hinv⟩ := detect_directed_cycle_run hWF hAcc hfuel
  rw [hdet] at hdet2
  simp only [Option.some.injEq, Prod.mk.injEq] at hdet2
  obtain ⟨hg, hb, hord⟩ := hdet2
  subst hg
  subst hord
  have hfull : ord.length = g.nvertex := by
    by_contra hneq
    rw [if_neg hneq] at hb
    exact Bool.noConfusion hb
  have hmem := kahn_full_mem hinv hfull
  intro u v hedge
  have hur : u ∈ List.range' 1 g.nvertex := hedge.1
  have hvr : v ∈ List.range' 1 g.nvertex := by
    obtain ⟨e, he, hev⟩ := hedge.2
    have := hWF.2.2 u hur e he
    rw [mem_range1]
    omega
  have hvord : v ∈ ord := hmem v hvr
  obtain ⟨huord, hidx⟩ := kahn_topo hAcc hinv u v hedge hvord
  exact ⟨huord, hvord, hidx⟩

/-- Witness for C7 at Scenario A: order `[1, 2, 3]`, edge `1→2`. -/
theorem c7_witness :
    edgeRel gA 1 2 ∧ 1 ∈ ([1, 2, 3] : List Nat) ∧ 2 ∈ ([1, 2, 3] : List Nat) ∧
      ([1, 2, 3] : List Nat).indexOf 1 < ([1, 2, 3] : List Nat).indexOf 2 := by
  have hdet : detect_directed_cycle 10 gA =
      some (((detect_directed_cycle 10 gA).getD (gA, false, [])).1, false, [1, 2, 3]) := rfl
  have h := c7_topological_order gA 10
    ((detect_directed_cycle 10 gA).getD (gA, false, [])).1 [1, 2, 3]
    (by decide) (by decide) (by decide) hdet 1 2 (by decide)
  exact ⟨by decide, h.1, h.2.1, h.2.2⟩

/-- C8 counterexample: `add_edge(0, 1, 0)` on a 2-vertex undirected graph
has its `from` endpoint outside `[1, vertexCount]`, yet it succeeds and
appends the edge to vertex 0's list instead of failing with `OutOfRange`
and leaving the graph unchanged. -/
theorem c8_counterexample_no_range_check :
    ¬ (1 ≤ (0 : Nat)) ∧
      ((Graph.init 2 false).add_edge 0 1 0).isSome = true ∧
      ((Graph.init 2 false).add_edge 0 1 0).map (fun g => g.nbrsD 0) =
        some [⟨0, 1⟩] ∧
      (Graph.init 2 false).nbrsD 0 = [] :=
  ⟨by decide, rfl, rfl, rfl⟩

/-- C8 (amended): `add_edge` performs no `[1, vertexCount]` validation.  Any
`from` within the allocated storage — including id 0 — is accepted and the
edge is appended to `from`'s outgoing list; the only failure mode is an
out-of-bounds vector access (undefined behavior, modelled as `none`) when
`from` (or, for a directed graph, `to`) lies beyond the storage, never a
clean `OutOfRange` error. -/
theorem c8_add_edge_no_validation (g : Graph) (x y : Nat) (w : Int)
    (hx : x < g.vertex.length) (hy : g.directed = true → y < g.vertex.length) :
    (∃ g', g.add_edge x y w = some g' ∧ g'.nbrsD x = g.nbrsD x ++ [⟨w, y⟩]) ∧
      (∀ x' y' w', g.vertex.length ≤ x' → g.add_edge x' y' w' = none) := by
  constructor
  · obtain ⟨g', h1, h2, -⟩ := add_edge_appends hx hy
    exact ⟨g', h1, h2⟩
  · intro x' y' w' hx'
    unfold Graph.add_edge
    have hnone : g.vertex[x']? = none := by
      rw [List.getElem?_eq_none hx']
    rw [hnone]

/-- Witness for C8 on a 2-vertex directed graph with edge `1→2`. -/
theorem c8_witness :
    (∃ g', (Graph.init 2 true).add_edge 1 2 0 = some g' ∧
        g'.nbrsD 1 = (Graph.init 2 true).nbrsD 1 ++ [⟨0, 2⟩]) ∧
      (∀ x' y' w', (Graph.init 2 true).vertex.length ≤ x' →
        (Graph.init 2 true).add_edge x' y' w' = none) :=
  c8_add_edge_no_validation (Graph.init 2 true) 1 2 0 (by decide) (by decide)

/-- C9: the invariant `processed[v] ⇒ discovered[v]` is preserved by every
operation — the public `bfs`, `dfs`, `find_components`, `has_cycle` and
`unvisit`, as well as the inner `do_bfs` and `do_dfs` that thread every
intermediate state; no operation marks a vertex processed without it being
discovered. -/
theorem c9_processed_implies_discovered (g : Graph) (fuel start : Nat)
    (hinv : ProcSubDisc g) :
    (∀ g' o, g.bfs fuel start = some (g', o) → ProcSubDisc g') ∧
    (∀ g' o, g.dfs fuel start = some (g', o) → ProcSubDisc g') ∧
    (∀ g' o, do_bfs fuel g start = some (g', o) → ProcSubDisc g') ∧
    (∀ g' o, do_dfs fuel g start = some (g', o) → ProcSubDisc g') ∧
    (∀ g' comps, g.find_components fuel = some (g', comps) → ProcSubDisc g') ∧
    (∀ g' b, g.has_cycle fuel = some (g', b) → ProcSubDisc g') ∧
    ProcSubDisc g.unvisit := by
  refine ⟨?_, ?_, ?_, ?_, ?_, ?_, ?_⟩
  · intro g' o h
    exact (bfs_some h).2.2.1 hinv
  · intro g' o h
    exact (dfs_some h).2.1 hinv
  · intro g' o h
    exact (do_bfs_some h).2.2.2.2.2 hinv
  · intro g' o h
    exact (do_dfs_some fuel g start g' o h).2.2 hinv
  · intro g' comps h
    exact find_components_psd h hinv
  · intro g' b h
    exact has_cycle_psd h hinv
  · intro v hv
    exact absurd hv (by simp [Graph.unvisit])

/-- Witness for C9 on a fresh 2-vertex graph. -/
theorem c9_witness :
    ProcSubDisc (Graph.init 2 false) ∧ ProcSubDisc ((Graph.init 2 false).unvisit) :=
  ⟨fun _ hv => Bool.noConfusion hv,
    (c9_processed_implies_discovered (Graph.init 2 false) 5 1
      (fun _ hv => Bool.noConfusion hv)).2.2.2.2.2.2⟩

/-- C10: `has_cycle` clears both visitation bitsets (via `unvisit`) before
any detection, so on a graph with at least one vertex its boolean result is
the same for any two states of the bitsets at call time; callers need not
invoke `unvisit` first. -/
theorem c10_has_cycle_bitset_independent (g : Graph) (d p : Nat → Bool)
    (fuel : Nat) (hn : 0 < g.nvertex) :
    (Graph.has_cycle fuel { g with discovered := d, processed := p }).map
        (fun r => r.2) =
      (g.has_cycle fuel).map (fun r => r.2) := by
  unfold Graph.has_cycle
  have hnv : ({ g with discovered := d, processed := p } : Graph).nvertex = g.nvertex := rfl
  have hdirx : ({ g with discovered := d, processed := p } : Graph).directed = g.directed := rfl
  have huv : ({ g with discovered := d, processed := p } : Graph).unvisit = g.unvisit := rfl
  rw [hnv, hdirx, huv, if_pos hn, if_pos hn]

/-- Witness for C10 on the undirected triangle with fully set bitsets. -/
theorem c10_witness :
    (Graph.has_cycle 10
        { gD with discovered := fun _ => true, processed := fun _ => true }).map
        (fun r => r.2) =
      (gD.has_cycle 10).map (fun r => r.2) :=
  c10_has_cycle_bitset_independent gD (fun _ => true) (fun _ => true) 10 (by decide)
